import Mathlib

/-!
Verification of the cronoisseur expression-parsing core (src/main.rs).

The Rust code is shallowly embedded: Rust strings are modelled as `List Char`,
fallible parses return `Option`, and the orchestrator returns `Except`.
Machine integers parsed with the Rust u32 parser are modelled as `Nat`
together with an explicit bound check against 2 ^ 32 (Rust `str::parse::<u32>`
rejects values that overflow).  Unicode-sensitive Rust operations
(`to_lowercase`, `char::is_whitespace`) are modelled by their ASCII behaviour,
which coincides with the Rust behaviour on every input class the grammar
accepts (ASCII letters, digits, punctuation and blanks).
-/

set_option maxHeartbeats 4000000
set_option maxRecDepth 10000

/-- Abbreviation turning a Lean string literal into the `List Char` model of a
Rust string. -/
def str (s : String) : List Char := s.toList

/-- Model of Rust `char::is_whitespace` restricted to the ASCII blanks that can
occur in schedule expressions. -/
def isWs (c : Char) : Bool := c = ' ' || c = '\t' || c = '\n' || c = '\r'

/-- Model of Rust `char::is_ascii_digit`: the code points of the decimal
digits. -/
def isDigitC (c : Char) : Bool := decide (48 ≤ c.toNat ∧ c.toNat ≤ 57)

/-- Numeric value of an ASCII digit character. -/
def digitVal (c : Char) : Nat := c.toNat - 48

/-- Model of Rust `str::trim_start`: drop leading whitespace. -/
def trimLeft (l : List Char) : List Char := l.dropWhile isWs

/-- Model of Rust `str::trim_end`: drop trailing whitespace. -/
def trimRight (l : List Char) : List Char := (l.reverse.dropWhile isWs).reverse

/-- Model of Rust `str::trim`. -/
def trim (l : List Char) : List Char := trimLeft (trimRight l)

/-- ASCII lowercase of one character, the fragment of Rust `to_lowercase`
exercised by the grammar. -/
def toLowerChar (c : Char) : Char :=
  if 65 ≤ c.toNat ∧ c.toNat ≤ 90 then Char.ofNat (c.toNat + 32) else c

/-- ASCII uppercase of one character, the fragment of Rust `to_uppercase`
used by `capitalize`. -/
def toUpperChar (c : Char) : Char :=
  if 97 ≤ c.toNat ∧ c.toNat ≤ 122 then Char.ofNat (c.toNat - 32) else c

/-- Model of Rust `str::to_lowercase` on ASCII input. -/
def toLowerStr (l : List Char) : List Char := l.map toLowerChar

/-- Model of Rust `str::starts_with` for a literal pattern. -/
def startsWithL : List Char → List Char → Bool
  | [], _ => true
  | _ :: _, [] => false
  | p :: ps, c :: cs => p == c && startsWithL ps cs

/-- Model of Rust `str::strip_prefix` for a literal pattern: the remainder of
the string after the pattern, when the pattern leads. -/
def dropLit (pat s : List Char) : Option (List Char) :=
  if startsWithL pat s then some (s.drop pat.length) else none

/-- Model of Rust `str::strip_suffix` for a literal pattern. -/
def stripSuffix (suf s : List Char) : Option (List Char) :=
  if suf.length ≤ s.length ∧ s.drop (s.length - suf.length) = suf then
    some (s.take (s.length - suf.length))
  else none

/-- Accumulator pass behind `splitWhitespace`; `cur` is the current token in
reverse order. -/
def splitWsAux : List Char → List Char → List (List Char)
  | [], cur => if cur = [] then [] else [cur.reverse]
  | c :: rest, cur =>
    if isWs c then
      if cur = [] then splitWsAux rest [] else cur.reverse :: splitWsAux rest []
    else splitWsAux rest (c :: cur)

/-- Model of Rust `str::split_whitespace`: whitespace-separated tokens, empty
tokens dropped. -/
def splitWhitespace (l : List Char) : List (List Char) := splitWsAux l []

/-- Model of Rust `str::split` on a single separator character.  The result is
always nonempty; an empty input yields one empty segment, exactly as the Rust
iterator does. -/
def splitOnChar (sep : Char) : List Char → List (List Char)
  | [] => [[]]
  | c :: rest =>
    match splitOnChar sep rest with
    | [] => [[]]
    | s :: ss => if c = sep then [] :: s :: ss else (c :: s) :: ss

/-- Model of Rust `str::split_once` with a literal pattern: split at the first
occurrence of the pattern. -/
def splitOnceSub (pat : List Char) : List Char → Option (List Char × List Char)
  | [] => none
  | c :: rest =>
    if startsWithL pat (c :: rest) then some ([], (c :: rest).drop pat.length)
    else
      match splitOnceSub pat rest with
      | some (a, b) => some (c :: a, b)
      | none => none

/-- Fuel-indexed worker for `replaceSub`; the fuel bounds the number of scanned
positions so the recursion is structural. -/
def replaceSubAux (pat repl : List Char) : Nat → List Char → List Char
  | 0, s => s
  | _ + 1, [] => []
  | fuel + 1, c :: rest =>
    if startsWithL pat (c :: rest) then
      repl ++ replaceSubAux pat repl fuel ((c :: rest).drop pat.length)
    else c :: replaceSubAux pat repl fuel rest

/-- Model of Rust `str::replace` for a nonempty literal pattern: replace every
non-overlapping occurrence, scanning left to right. -/
def replaceSub (pat repl s : List Char) : List Char :=
  replaceSubAux pat repl s.length s

/-- Fuel-indexed worker for `trimStartMatches`. -/
def trimStartMatchesAux (pat : List Char) : Nat → List Char → List Char
  | 0, s => s
  | fuel + 1, s =>
    if pat ≠ [] ∧ startsWithL pat s then
      trimStartMatchesAux pat fuel (s.drop pat.length)
    else s

/-- Model of Rust `str::trim_start_matches`: repeatedly strip the pattern from
the front. -/
def trimStartMatches (pat s : List Char) : List Char :=
  trimStartMatchesAux pat s.length s

/-- Model of Rust `Vec::join` on string pieces. -/
def joinSep (sep : List Char) : List (List Char) → List Char
  | [] => []
  | [x] => x
  | x :: y :: rest => x ++ sep ++ joinSep sep (y :: rest)

/-- Decimal digit character for one digit value, as produced by Rust integer
formatting. -/
def digitChar (d : Nat) : Char :=
  match d with
  | 0 => '0' | 1 => '1' | 2 => '2' | 3 => '3' | 4 => '4'
  | 5 => '5' | 6 => '6' | 7 => '7' | 8 => '8' | _ => '9'

/-- Fuel-indexed worker for `natToChars`. -/
def natToCharsAux : Nat → Nat → List Char
  | 0, _ => []
  | fuel + 1, n =>
    if n < 10 then [digitChar n]
    else natToCharsAux fuel (n / 10) ++ [digitChar (n % 10)]

/-- Decimal representation of a natural number, as produced by Rust
`format!` and `to_string` on unsigned integers. -/
def natToChars (n : Nat) : List Char := natToCharsAux (n + 1) n

/-- Value of a string of decimal digits. -/
def natOfDigits (l : List Char) : Nat := l.foldl (fun a c => a * 10 + digitVal c) 0

/-- Model of Rust `str::parse::<u32>`: an optional leading plus sign, then at
least one digit, rejecting values of 2 ^ 32 and above (overflow). -/
def parseU32 (s : List Char) : Option Nat :=
  let ds := if startsWithL (str "+") s then s.drop 1 else s
  if ds = [] then none
  else if ds.all isDigitC then
    if natOfDigits ds < 2 ^ 32 then some (natOfDigits ds) else none
  else none

/-- Schedule Record of src/main.rs (`struct CronSpec`): the five cron fields
plus the generated explanation. -/
structure CronSpec where
  minute : List Char
  hour : List Char
  day_of_month : List Char
  month : List Char
  day_of_week : List Char
  explanation : List Char
deriving DecidableEq, Repr

/-- The two fatal parse errors of `parse_expression` (`bail!` sites): the
empty-expression error and the unsupported-phrasing error. -/
inductive ParseError where
  | emptyExpression
  | unsupportedPhrasing
deriving DecidableEq, Repr

/-- Meridian marker recorded by `parse_time_fragment`. -/
inductive Meridian where
  | am
  | pm
deriving DecidableEq, Repr

/-- Model of `format_clock` in src/main.rs: zero-padded `HH:MM`. -/
def pad2 (n : Nat) : List Char :=
  if n < 10 then '0' :: natToChars n else natToChars n

/-- Model of `format_clock`. -/
def format_clock (hour minute : Nat) : List Char :=
  pad2 hour ++ str ":" ++ pad2 minute

/-- Model of `capitalize` in src/main.rs (ASCII fragment). -/
def capitalize (l : List Char) : List Char :=
  match l with
  | [] => []
  | c :: rest => toUpperChar c :: rest

/-- Final validation and meridian adjustment of `parse_time_fragment`: parse
the hour and optional minute parts, bound-check them, then apply the meridian
rules of the source (reject hour above 12; am with hour 12 maps to 0; pm with
hour distinct from 12 adds 12). -/
def timeFromParts (hp : List Char) (mp : Option (List Char)) (mer : Option Meridian) :
    Option (Nat × Nat) :=
  match parseU32 hp with
  | none => none
  | some hour =>
    if hour > 23 then none
    else
      match (match mp with | some v => parseU32 v | none => some 0) with
      | none => none
      | some minute =>
        if minute > 59 then none
        else
          match mer with
          | none => some (hour, minute)
          | some Meridian.am =>
            if hour > 12 then none
            else some (if hour = 12 then 0 else hour, minute)
          | some Meridian.pm =>
            if hour > 12 then none
            else some (if hour = 12 then hour else hour + 12, minute)

/-- Colon split stage of `parse_time_fragment`: the Rust code pulls at most two
segments from `fragment.split(':')` and rejects a third. -/
def timeSplit (fragment : List Char) (mer : Option Meridian) : Option (Nat × Nat) :=
  match splitOnChar ':' fragment with
  | [hp] => timeFromParts hp none mer
  | [hp, mp] => timeFromParts hp (some mp) mer
  | _ => none

/-- Meridian stripping stage of `parse_time_fragment`: try the suffix `am`,
then `pm`, exactly as the source does. -/
def timeCore (fragment : List Char) : Option (Nat × Nat) :=
  match stripSuffix (str "am") fragment with
  | some rest => timeSplit rest (some Meridian.am)
  | none =>
    match stripSuffix (str "pm") fragment with
    | some rest => timeSplit rest (some Meridian.pm)
    | none => timeSplit fragment none

/-- Model of `parse_time_fragment` in src/main.rs. -/
def parse_time_fragment (raw : List Char) : Option (Nat × Nat) :=
  let trimmed := toLowerStr (trim raw)
  if trimmed = str "midnight" then some (0, 0)
  else if trimmed = str "noon" then some (12, 0)
  else timeCore (trimmed.filter (fun c => !(c == ' ')))

/-- Weekday set built by `parse_day_list` (`struct DayList`). -/
structure DayList where
  cron_value : List Char
  days : List Nat
deriving DecidableEq, Repr

/-- Day-of-month set built by `parse_dom_list` (`struct DomList`). -/
structure DomList where
  cron_value : List Char
  human_value : List Char
deriving DecidableEq, Repr

/-- Model of `day_number` in src/main.rs: the fixed weekday name table. -/
def day_number (token : List Char) : Option Nat :=
  if token = str "sun" ∨ token = str "sunday" then some 0
  else if token = str "mon" ∨ token = str "monday" then some 1
  else if token = str "tue" ∨ token = str "tues" ∨ token = str "tuesday" then some 2
  else if token = str "wed" ∨ token = str "weds" ∨ token = str "wednesday" then some 3
  else if token = str "thu" ∨ token = str "thur" ∨ token = str "thurs" ∨ token = str "thursday" then some 4
  else if token = str "fri" ∨ token = str "friday" then some 5
  else if token = str "sat" ∨ token = str "saturday" then some 6
  else none

/-- Stop words skipped by `parse_day_list`. -/
def stopWords : List (List Char) :=
  [str "every", str "each", str "on", str "week", str "weeks", str "weekly", str "the"]

/-- Token loop of `parse_day_list`: lowercase, skip stop words, strip one
trailing plural s, resolve through `day_number`, deduplicate preserving first
occurrence, failing the whole parse on any unresolved token. -/
def collectDays : List (List Char) → List Nat → Option (List Nat)
  | [], acc => some acc
  | t :: ts, acc =>
    let lower := toLowerStr (trim t)
    if lower ∈ stopWords then collectDays ts acc
    else
      let cleaned := if lower.getLast? = some 's' then lower.dropLast else lower
      match day_number cleaned with
      | some v => collectDays ts (if v ∈ acc then acc else acc ++ [v])
      | none => none

/-- Insertion step of the ascending sort. -/
def insertAsc (x : Nat) : List Nat → List Nat
  | [] => [x]
  | y :: ys => if x ≤ y then x :: y :: ys else y :: insertAsc x ys

/-- Ascending sort modelling Rust `Vec::sort` on the deduplicated day lists
(the elements are pairwise distinct, so stability is immaterial and the result
is the unique sorted arrangement). -/
def sortAsc : List Nat → List Nat
  | [] => []
  | x :: xs => insertAsc x (sortAsc xs)

/-- Model of `parse_day_list` in src/main.rs. -/
def parse_day_list (input : List Char) : Option DayList :=
  let normalized :=
    replaceSub (str " and ") (str " ")
      ((input.map (fun c => if c = ',' then ' ' else c)).map
        (fun c => if c = '&' then ' ' else c))
  match collectDays (splitWhitespace normalized) [] with
  | none => none
  | some days =>
    if days = [] then none
    else
      let sorted := sortAsc days
      some ⟨joinSep (str ",") (sorted.map natToChars), sorted⟩

/-- Token loop of `parse_dom_list`: skip digitless tokens, keep only digit
characters, accept values in 1..=31 not already present. -/
def collectDoms : List (List Char) → List Nat → List Nat
  | [], acc => acc
  | t :: ts, acc =>
    if t.all (fun c => !(isDigitC c)) then collectDoms ts acc
    else
      let digits := t.filter isDigitC
      if digits = [] then collectDoms ts acc
      else
        match parseU32 digits with
        | some v =>
          if 1 ≤ v ∧ v ≤ 31 ∧ v ∉ acc then collectDoms ts (acc ++ [v])
          else collectDoms ts acc
        | none => collectDoms ts acc

/-- Normalization pass of `parse_dom_list`: comma to blank, the word and to a
blank, then blind stripping of the ordinal substrings th, rd, nd, st anywhere
in the text. -/
def domNormalize (raw : List Char) : List Char :=
  replaceSub (str "st") []
    (replaceSub (str "nd") []
      (replaceSub (str "rd") []
        (replaceSub (str "th") []
          (replaceSub (str " and ") (str " ")
            (raw.map (fun c => if c = ',' then ' ' else c))))))

/-- Model of `parse_dom_list` in src/main.rs. -/
def parse_dom_list (raw : List Char) : Option DomList :=
  let values := collectDoms (splitWhitespace (domNormalize raw)) []
  if values = [] then none
  else
    let sorted := sortAsc values
    some ⟨joinSep (str ",") (sorted.map natToChars),
          joinSep (str ", ") (sorted.map natToChars)⟩

/-- Character class of the raw-cron recognizer: ASCII alphanumerics and the
characters star, question mark, slash, comma, hyphen. -/
def rawCharOk (c : Char) : Bool :=
  c.isAlphanum || c = '*' || c = '?' || c = '/' || c = ',' || c = '-'

/-- Model of `try_parse_raw` in src/main.rs: exactly five whitespace-separated
tokens over `rawCharOk` pass through unchanged. -/
def try_parse_raw (input : List Char) : Option CronSpec :=
  match splitWhitespace input with
  | [p0, p1, p2, p3, p4] =>
    if p0.all rawCharOk && p1.all rawCharOk && p2.all rawCharOk
        && p3.all rawCharOk && p4.all rawCharOk then
      some ⟨p0, p1, p2, p3, p4, str "Raw cron expression"⟩
    else none
  | _ => none

/-- One-or-more whitespace, the backslash-s-plus regex atom.  In every pattern
below the atom is followed by a non-blank literal, so the greedy deterministic
reading used here coincides with the backtracking regex semantics. -/
def ws1 (s : List Char) : Option (List Char) :=
  if s.takeWhile isWs = [] then none else some (s.dropWhile isWs)

/-- Matcher for the anchored regex of `try_parse_every_minutes`:
caret every, blanks, an optional group of digits-then-blanks captured as n,
then min with an optional ute and an optional plural s, then the anchor.
After the literal min the only accepted tails are the empty string, s, ute
and utes, which is exactly the language of the regex tail. -/
def matchEveryMinutesTail (cap : Option (List Char)) (r : List Char) :
    Option (Option (List Char)) :=
  match dropLit (str "min") r with
  | none => none
  | some rest =>
    if rest = [] ∨ rest = str "s" ∨ rest = str "ute" ∨ rest = str "utes" then some cap
    else none

/-- Head of the every-minutes matcher: the digit group is taken exactly when
digits lead, since the following literal min cannot start with a digit the
backtracking alternative never produces a different capture. -/
def matchEveryMinutes (s : List Char) : Option (Option (List Char)) :=
  match dropLit (str "every") s with
  | none => none
  | some r1 =>
    match ws1 r1 with
    | none => none
    | some r2 =>
      let ds := r2.takeWhile isDigitC
      if ds = [] then matchEveryMinutesTail none r2
      else
        match ws1 (r2.dropWhile isDigitC) with
        | none => none
        | some r3 => matchEveryMinutesTail (some ds) r3

/-- Model of `try_parse_every_minutes` in src/main.rs. -/
def try_parse_every_minutes (input : List Char) : Option CronSpec :=
  (matchEveryMinutes input).map (fun ncap =>
    let amount :=
      max (match ncap with
            | some d => (parseU32 d).getD 1
            | none => 1) 1
    let minute := if amount = 1 then str "*" else str "*/" ++ natToChars amount
    ⟨minute, str "*", str "*", str "*", str "*",
      str "Every " ++ natToChars amount ++ str " minute(s)"⟩)

/-- Optional at-colon-minutes tail shared by the hourly and every-N-hours
regexes: either the end of input, or blanks, at, blanks, a colon and one or
two digits running to the anchor, captured as m. -/
def matchAtColonMM (r : List Char) : Option (Option (List Char)) :=
  if r = [] then some none
  else
    match ws1 r with
    | none => none
    | some r1 =>
      match dropLit (str "at") r1 with
      | none => none
      | some r2 =>
        match ws1 r2 with
        | none => none
        | some r3 =>
          match dropLit (str ":") r3 with
          | none => none
          | some r4 =>
            let ds := r4.takeWhile isDigitC
            if (ds.length = 1 ∨ ds.length = 2) ∧ r4.dropWhile isDigitC = [] then
              some (some ds)
            else none

/-- Head alternation of the hourly regex: the literal hourly, or every,
blanks, hour. -/
def matchHourlyHead (s : List Char) : Option (List Char) :=
  match dropLit (str "hourly") s with
  | some r => some r
  | none =>
    match dropLit (str "every") s with
    | none => none
    | some r1 =>
      match ws1 r1 with
      | none => none
      | some r2 => dropLit (str "hour") r2

/-- Model of `try_parse_hourly` in src/main.rs. -/
def try_parse_hourly (input : List Char) : Option CronSpec :=
  match matchHourlyHead input with
  | none => none
  | some r =>
    (matchAtColonMM r).map (fun mcap =>
      let minute :=
        match mcap with
        | some d => min ((parseU32 d).getD 0) 59
        | none => 0
      ⟨natToChars minute, str "*", str "*", str "*", str "*",
        if minute = 0 then str "Every hour on the hour"
        else str "Every hour at :" ++ pad2 minute⟩)

/-- Matcher for the every-N-hours regex: every, blanks, digits captured as n,
blanks, hour, an optional plural s, then the shared at-colon-minutes tail.
Taking the plural s greedily agrees with the regex because the tail after it
must start with a blank or be empty. -/
def matchEveryHours (s : List Char) : Option (List Char × Option (List Char)) :=
  match dropLit (str "every") s with
  | none => none
  | some r1 =>
    match ws1 r1 with
    | none => none
    | some r2 =>
      let ds := r2.takeWhile isDigitC
      if ds = [] then none
      else
        match ws1 (r2.dropWhile isDigitC) with
        | none => none
        | some r3 =>
          match dropLit (str "hour") r3 with
          | none => none
          | some r4 =>
            let r5 := match dropLit (str "s") r4 with
              | some x => x
              | none => r4
            match matchAtColonMM r5 with
            | none => none
            | some mcap => some (ds, mcap)

/-- Model of `try_parse_every_hours` in src/main.rs. -/
def try_parse_every_hours (input : List Char) : Option CronSpec :=
  match matchEveryHours input with
  | none => none
  | some (ncap, mcap) =>
    let amount :=
      match parseU32 ncap with
      | some v => if 0 < v then v else 1
      | none => 1
    let minute :=
      match mcap with
      | some d => min ((parseU32 d).getD 0) 59
      | none => 0
    some ⟨natToChars minute,
      if amount = 1 then str "*" else str "*/" ++ natToChars amount,
      str "*", str "*", str "*",
      if minute = 0 then str "Every " ++ natToChars amount ++ str " hour(s)"
      else str "Every " ++ natToChars amount ++ str " hour(s) at :" ++ pad2 minute⟩

/-- Head alternation of the daily regex: an optional every-then-blanks before
the literal day, or the literal daily.  The two alternatives have disjoint
leading characters, so the first-preference regex semantics is deterministic
here. -/
def matchDailyHead (s : List Char) : Option (List Char) :=
  match dropLit (str "every") s with
  | some r1 =>
    match ws1 r1 with
    | none => none
    | some r2 => dropLit (str "day") r2
  | none =>
    match dropLit (str "day") s with
    | some r => some r
    | none => dropLit (str "daily") s

/-- Tail of the daily regex: an optional blanks-at-blanks group followed by a
mandatory nonempty time capture.  When the optional group consumes everything
the regex backtracks to the ungrouped reading; both readings then fail the
time sub-parse, so collapsing them to a non-match is observationally equal. -/
def matchOptAtThenTime (r : List Char) : Option (List Char) :=
  let t :=
    match ws1 r with
    | some r1 =>
      (match dropLit (str "at") r1 with
        | some r2 =>
          (match ws1 r2 with
            | some r3 => r3
            | none => r)
        | none => r)
    | none => r
  if t = [] then none else some t

/-- Model of `try_parse_daily` in src/main.rs. -/
def try_parse_daily (input : List Char) : Option CronSpec :=
  match matchDailyHead input with
  | none => none
  | some r =>
    match matchOptAtThenTime r with
    | none => none
    | some t =>
      (parse_time_fragment t).map (fun hm =>
        ⟨natToChars hm.2, natToChars hm.1, str "*", str "*", str "*",
          str "Daily at " ++ format_clock hm.1 hm.2⟩)

/-- Kind alternation of the weekday-weekend regex, capturing the matched kind
token so the caller can test its weekend leading substring as the source
does. -/
def matchKind (s : List Char) : Option (List Char × List Char) :=
  match dropLit (str "weekday") s with
  | some r =>
    match dropLit (str "s") r with
    | some r2 => some (str "weekdays", r2)
    | none => some (str "weekday", r)
  | none =>
    match dropLit (str "weekend") s with
    | some r =>
      match dropLit (str "s") r with
      | some r2 => some (str "weekends", r2)
      | none => some (str "weekend", r)
    | none => none

/-- Matcher for the weekday-weekend regex: an optional every-then-blanks, the
kind, blanks, an optional at-then-blanks, then the nonempty time capture. -/
def matchWeekdayish (s : List Char) : Option (List Char × List Char) :=
  let s1 :=
    match dropLit (str "every") s with
    | some r =>
      (match ws1 r with
        | some r2 => r2
        | none => s)
    | none => s
  match matchKind s1 with
  | none => none
  | some (kind, r) =>
    match ws1 r with
    | none => none
    | some r1 =>
      let t :=
        match dropLit (str "at") r1 with
        | some r2 =>
          (match ws1 r2 with
            | some r3 => r3
            | none => r1)
        | none => r1
      if t = [] then none else some (kind, t)

/-- Model of `try_parse_weekdayish` in src/main.rs. -/
def try_parse_weekdayish (input : List Char) : Option CronSpec :=
  match matchWeekdayish input with
  | none => none
  | some (kind, t) =>
    (parse_time_fragment t).map (fun hm =>
      let weekend := startsWithL (str "weekend") kind
      let dow := if weekend then str "6,0" else str "1-5"
      let label := if weekend then str "weekends" else str "weekdays"
      ⟨natToChars hm.2, natToChars hm.1, str "*", str "*", dow,
        capitalize label ++ str " at " ++ format_clock hm.1 hm.2⟩)

/-- Weekday labels of `describe_days` in src/main.rs. -/
def dayLabel (d : Nat) : List Char :=
  match d with
  | 0 => str "Sundays"
  | 1 => str "Mondays"
  | 2 => str "Tuesdays"
  | 3 => str "Wednesdays"
  | 4 => str "Thursdays"
  | 5 => str "Fridays"
  | _ => str "Saturdays"

/-- Model of `describe_days` in src/main.rs. -/
def describe_days (days : List Nat) : List Char :=
  let labels := days.map dayLabel
  match labels with
  | [x] => x
  | _ => joinSep (str ", ") labels

/-- Model of `try_parse_specific_days` in src/main.rs. -/
def try_parse_specific_days (input : List Char) : Option CronSpec :=
  match splitOnceSub (str " at ") input with
  | none => none
  | some (dayPart, timePart) =>
    match parse_day_list dayPart with
    | none => none
    | some dl =>
      match parse_time_fragment timePart with
      | none => none
      | some hm =>
        some ⟨natToChars hm.2, natToChars hm.1, str "*", str "*", dl.cron_value,
          describe_days dl.days ++ str " at " ++ format_clock hm.1 hm.2⟩

/-- Model of `try_parse_monthly` in src/main.rs.  A failed sub-parse inside
the on branch aborts the whole recognizer (the question-mark operator in the
source), it does not fall through to the bare-at branch. -/
def try_parse_monthly (input : List Char) : Option CronSpec :=
  if startsWithL (str "monthly") input then
    let remainder := trim (trimStartMatches (str "monthly") input)
    if remainder = [] then none
    else
      match dropLit (str "on ") remainder with
      | some rest =>
        (match splitOnceSub (str " at ") rest with
          | none => none
          | some (domPart, timePart) =>
            match parse_dom_list domPart with
            | none => none
            | some dom =>
              match parse_time_fragment timePart with
              | none => none
              | some hm =>
                some ⟨natToChars hm.2, natToChars hm.1, dom.cron_value, str "*", str "*",
                  str "Monthly on " ++ dom.human_value ++ str " at "
                    ++ format_clock hm.1 hm.2⟩)
      | none =>
        match dropLit (str "at ") remainder with
        | some timePart =>
          (parse_time_fragment timePart).map (fun hm =>
            ⟨natToChars hm.2, natToChars hm.1, str "1", str "*", str "*",
              str "Monthly on day 1 at " ++ format_clock hm.1 hm.2
                ++ str " (default day)"⟩)
        | none => none
  else none

/-- Model of `try_parse_on_days` in src/main.rs. -/
def try_parse_on_days (input : List Char) : Option CronSpec :=
  if startsWithL (str "on ") input then
    let remainder := trim (trimStartMatches (str "on ") input)
    match splitOnceSub (str " at ") remainder with
    | none => none
    | some (domPart, timePart) =>
      match parse_dom_list domPart with
      | none => none
      | some dom =>
        match parse_time_fragment timePart with
        | none => none
        | some hm =>
          some ⟨natToChars hm.2, natToChars hm.1, dom.cron_value, str "*", str "*",
            str "On " ++ dom.human_value ++ str " at " ++ format_clock hm.1 hm.2⟩
  else none

/-- The eight natural-language recognizers, in the exact cascade order of
`parse_expression` (the raw recognizer runs earlier, on the unnormalized
trimmed input). -/
def recognizers : List (List Char → Option CronSpec) :=
  [try_parse_every_minutes, try_parse_hourly, try_parse_every_hours,
   try_parse_daily, try_parse_weekdayish, try_parse_specific_days,
   try_parse_monthly, try_parse_on_days]

/-- First success of an ordered recognizer cascade. -/
def firstMatch : List (List Char → Option CronSpec) → List Char → Option CronSpec
  | [], _ => none
  | f :: fs, x =>
    match f x with
    | some spec => some spec
    | none => firstMatch fs x

/-- Normalization performed by `parse_expression` before recognizers 2 to 9:
collapse whitespace runs to single spaces, lowercase, replace the en and em
dashes with the ASCII hyphen. -/
def normalize_input (trimmed : List Char) : List Char :=
  ((toLowerStr (joinSep (str " ") (splitWhitespace trimmed))).map
      (fun c => if c = '–' then '-' else c)).map
    (fun c => if c = '—' then '-' else c)

/-- Model of `parse_expression` in src/main.rs: trim, fail empty input, try
the raw recognizer on the trimmed original, then the normalized cascade, and
fail with the unsupported-phrasing error when nothing matches. -/
def parse_expression (expression : List Char) : Except ParseError CronSpec :=
  let trimmed := trim expression
  if trimmed = [] then .error .emptyExpression
  else
    match try_parse_raw trimmed with
    | some spec => .ok spec
    | none =>
      match firstMatch recognizers (normalize_input trimmed) with
      | some spec => .ok spec
      | none => .error .unsupportedPhrasing

/-! Basic facts about digits, decimal rendering and the u32 parser. -/

theorem digitChar_spec (n : Nat) (h : n < 10) :
    isDigitC (digitChar n) = true ∧ digitVal (digitChar n) = n := by
  interval_cases n <;> exact ⟨by decide, by decide⟩

theorem natOfDigits_snoc (l : List Char) (c : Char) :
    natOfDigits (l ++ [c]) = natOfDigits l * 10 + digitVal c := by
  simp [natOfDigits, List.foldl_append]

theorem natToCharsAux_spec (fuel : Nat) :
    ∀ n, n < fuel →
      natToCharsAux fuel n ≠ [] ∧ (natToCharsAux fuel n).all isDigitC = true ∧
        natOfDigits (natToCharsAux fuel n) = n := by
  induction fuel with
  | zero => intro n hn; omega
  | succ f ih =>
    intro n hn
    by_cases h10 : n < 10
    · have hd := digitChar_spec n h10
      refine ⟨by simp [natToCharsAux, h10], ?_, ?_⟩
      · simp [natToCharsAux, h10, hd.1]
      · simp [natToCharsAux, h10, natOfDigits, hd.2]
    · have hdiv : n / 10 < f := by
        have h1 : n / 10 < n := Nat.div_lt_self (by omega) (by omega)
        omega
      obtain ⟨hne, hall, hval⟩ := ih (n / 10) hdiv
      have hd := digitChar_spec (n % 10) (Nat.mod_lt n (by omega))
      refine ⟨by simp [natToCharsAux, h10], ?_, ?_⟩
      · simp only [natToCharsAux, if_neg h10, List.all_append, hall, List.all_cons,
          List.all_nil, hd.1, Bool.and_self]
      · simp only [natToCharsAux, if_neg h10, natOfDigits_snoc, hval, hd.2]
        omega

theorem natToChars_ne_nil (n : Nat) : natToChars n ≠ [] :=
  (natToCharsAux_spec (n + 1) n (Nat.lt_succ_self n)).1

theorem natToChars_all_digit (n : Nat) : (natToChars n).all isDigitC = true :=
  (natToCharsAux_spec (n + 1) n (Nat.lt_succ_self n)).2.1

theorem natOfDigits_natToChars (n : Nat) : natOfDigits (natToChars n) = n :=
  (natToCharsAux_spec (n + 1) n (Nat.lt_succ_self n)).2.2

theorem natToChars_head_digit (n : Nat) :
    ∀ c, (natToChars n).head? = some c → isDigitC c = true := by
  intro c hc
  have hall := natToChars_all_digit n
  cases hnc : natToChars n with
  | nil => rw [hnc] at hc; simp at hc
  | cons d ds =>
    rw [hnc] at hc hall
    simp only [List.head?_cons, Option.some.injEq] at hc
    subst hc
    simp only [List.all_cons, Bool.and_eq_true] at hall
    exact hall.1

theorem parseU32_natToChars (n : Nat) (h : n < 2 ^ 32) :
    parseU32 (natToChars n) = some n := by
  have hne := natToChars_ne_nil n
  have hall := natToChars_all_digit n
  have hval := natOfDigits_natToChars n
  have hplus : startsWithL (str "+") (natToChars n) = false := by
    cases hnc : natToChars n with
    | nil => exact absurd hnc hne
    | cons c cs =>
      have hc : isDigitC c = true := natToChars_head_digit n c (by rw [hnc]; rfl)
      have hb : ('+' == c) = false := by
        cases he : '+' == c
        · rfl
        · exfalso; rw [beq_iff_eq] at he; rw [← he] at hc; exact absurd hc (by decide)
      show (('+' == c) && startsWithL [] cs) = false
      rw [hb]; rfl
  simp [parseU32, hplus, hne, hall, hval]
  omega

/-! Scanning lemmas used to walk the regex matchers over symbolic inputs. -/

theorem dropWhile_eq_self_of_head (p : Char → Bool) (l : List Char)
    (h : ∀ c, l.head? = some c → p c = false) : l.dropWhile p = l := by
  cases l with
  | nil => rfl
  | cons c cs => simp [List.dropWhile_cons, h c rfl]

theorem takeWhile_eq_nil_of_head (p : Char → Bool) (l : List Char)
    (h : ∀ c, l.head? = some c → p c = false) : l.takeWhile p = [] := by
  cases l with
  | nil => rfl
  | cons c cs => simp [List.takeWhile_cons, h c rfl]

theorem takeWhile_append_stop (p : Char → Bool) (xs ys : List Char)
    (hxs : ∀ c ∈ xs, p c = true) (hys : ∀ c, ys.head? = some c → p c = false) :
    (xs ++ ys).takeWhile p = xs ∧ (xs ++ ys).dropWhile p = ys := by
  induction xs with
  | nil =>
    exact ⟨takeWhile_eq_nil_of_head p ys hys, dropWhile_eq_self_of_head p ys hys⟩
  | cons x xs ih =>
    have hx : p x = true := hxs x (List.mem_cons_self x xs)
    obtain ⟨h1, h2⟩ := ih (fun c hc => hxs c (List.mem_cons_of_mem x hc))
    constructor
    · simp [List.takeWhile_cons, hx, h1]
    · simp [List.dropWhile_cons, hx, h2]

theorem ws1_cons (c : Char) (l : List Char) (hc : isWs c = true)
    (hl : ∀ d, l.head? = some d → isWs d = false) : ws1 (c :: l) = some l := by
  have h1 : (c :: l).takeWhile isWs = c :: l.takeWhile isWs := by
    simp [List.takeWhile_cons, hc]
  have h2 : (c :: l).dropWhile isWs = l.dropWhile isWs := by
    simp [List.dropWhile_cons, hc]
  simp [ws1, h1, h2, dropWhile_eq_self_of_head isWs l hl]

theorem startsWithL_append_self (pat rest : List Char) :
    startsWithL pat (pat ++ rest) = true := by
  induction pat with
  | nil => rfl
  | cons p ps ih => simp [startsWithL, ih]

theorem dropLit_append (pat rest : List Char) :
    dropLit pat (pat ++ rest) = some rest := by
  simp [dropLit, startsWithL_append_self, List.drop_left]

/-! Trimming lemmas for symbolic tails. -/

/-- A string with a non-blank first character and a non-blank last character;
such a string is untouched by trimming. -/
def noEdgeWs (l : List Char) : Bool :=
  match l.head?, l.getLast? with
  | some a, some b => !isWs a && !isWs b
  | _, _ => false

theorem noEdgeWs_head (l : List Char) (h : noEdgeWs l = true) :
    ∀ c, l.head? = some c → isWs c = false := by
  intro c hc
  unfold noEdgeWs at h
  rw [hc] at h
  cases hb : l.getLast? with
  | none => rw [hb] at h; simp at h
  | some b => rw [hb] at h; simp only [Bool.and_eq_true, Bool.not_eq_true'] at h; exact h.1

theorem noEdgeWs_last (l : List Char) (h : noEdgeWs l = true) :
    ∀ c, l.getLast? = some c → isWs c = false := by
  intro c hc
  unfold noEdgeWs at h
  rw [hc] at h
  cases hb : l.head? with
  | none => rw [hb] at h; simp at h
  | some b => rw [hb] at h; simp only [Bool.and_eq_true, Bool.not_eq_true'] at h; exact h.2

theorem noEdgeWs_ne_nil (l : List Char) (h : noEdgeWs l = true) : l ≠ [] := by
  intro he; rw [he] at h; exact absurd h (by decide)

theorem trimRight_eq_self (l : List Char)
    (h : ∀ c, l.getLast? = some c → isWs c = false) : trimRight l = l := by
  unfold trimRight
  rw [dropWhile_eq_self_of_head isWs l.reverse ?_, List.reverse_reverse]
  intro c hc
  exact h c (by rwa [← List.head?_reverse])

theorem trimLeft_eq_self (l : List Char)
    (h : ∀ c, l.head? = some c → isWs c = false) : trimLeft l = l :=
  dropWhile_eq_self_of_head isWs l h

theorem trim_eq_self_of_noEdgeWs (l : List Char) (h : noEdgeWs l = true) : trim l = l := by
  unfold trim
  rw [trimRight_eq_self l (noEdgeWs_last l h), trimLeft_eq_self l (noEdgeWs_head l h)]

/-- Trimming a blank-at-blank head off a tail with clean edges: the exact shape
appearing in the monthly and on-days recognizers. -/
theorem trim_space_append (head t : List Char) (hh : head ≠ [])
    (hhead : ∀ c, (' ' :: head).head? = some c → isWs c = true)
    (hhead2 : ∀ c, head.head? = some c → isWs c = false)
    (ht : noEdgeWs t = true) :
    trim ((' ' :: head) ++ t) = head ++ t := by
  unfold trim
  have htr : trimRight ((' ' :: head) ++ t) = (' ' :: head) ++ t := by
    apply trimRight_eq_self
    intro c hc
    rw [List.getLast?_append_of_ne_nil _ (noEdgeWs_ne_nil t ht)] at hc
    exact noEdgeWs_last t ht c hc
  rw [htr]
  unfold trimLeft
  rw [List.cons_append, List.dropWhile_cons]
  simp only [show isWs ' ' = true from rfl, if_true]
  apply dropWhile_eq_self_of_head
  intro c hc
  cases head with
  | nil => exact absurd rfl hh
  | cons x xs =>
    simp only [List.cons_append, List.head?_cons, Option.some.injEq] at hc
    subst hc
    exact hhead2 x rfl

/-! Sortedness and boundedness of the weekday and day-of-month sets. -/

theorem insertAsc_perm (x : Nat) (l : List Nat) : List.Perm (insertAsc x l) (x :: l) := by
  induction l with
  | nil => rfl
  | cons y ys ih =>
    unfold insertAsc
    by_cases h : x ≤ y
    · rw [if_pos h]
    · rw [if_neg h]
      exact (ih.cons y).trans (List.Perm.swap x y ys)

theorem sortAsc_perm (l : List Nat) : List.Perm (sortAsc l) l := by
  induction l with
  | nil => rfl
  | cons x xs ih => exact (insertAsc_perm x (sortAsc xs)).trans (ih.cons x)

theorem insertAsc_sorted (x : Nat) (l : List Nat) (h : l.Sorted (· ≤ ·)) :
    (insertAsc x l).Sorted (· ≤ ·) := by
  induction l with
  | nil => simp [insertAsc]
  | cons y ys ih =>
    rw [List.sorted_cons] at h
    unfold insertAsc
    by_cases hxy : x ≤ y
    · rw [if_pos hxy, List.sorted_cons]
      refine ⟨?_, by rw [List.sorted_cons]; exact h⟩
      intro b hb
      rcases List.mem_cons.mp hb with hb | hb
      · omega
      · exact le_trans hxy (h.1 b hb)
    · rw [if_neg hxy, List.sorted_cons]
      refine ⟨?_, ih h.2⟩
      intro b hb
      have : b ∈ x :: ys := (insertAsc_perm x ys).mem_iff.mp hb
      rcases List.mem_cons.mp this with hb | hb
      · omega
      · exact h.1 b hb

theorem sortAsc_sorted (l : List Nat) : (sortAsc l).Sorted (· ≤ ·) := by
  induction l with
  | nil => simp [sortAsc]
  | cons x xs ih => exact insertAsc_sorted x (sortAsc xs) ih

theorem sortAsc_pairwise_lt (l : List Nat) (h : l.Nodup) :
    (sortAsc l).Pairwise (· < ·) := by
  have hs : (sortAsc l).Sorted (· ≤ ·) := sortAsc_sorted l
  have hn : (sortAsc l).Nodup := ((sortAsc_perm l).nodup_iff).mpr h
  exact (List.Pairwise.and hs hn).imp (fun hab => lt_of_le_of_ne hab.1 hab.2)

theorem day_number_le (t : List Char) (v : Nat) (h : day_number t = some v) : v ≤ 6 := by
  unfold day_number at h
  repeat' split at h
  all_goals simp_all
  all_goals omega

theorem collectDays_spec (ts : List (List Char)) :
    ∀ acc res, collectDays ts acc = some res →
      acc.Nodup → (∀ d ∈ acc, d ≤ 6) →
      res.Nodup ∧ (∀ d ∈ res, d ≤ 6) := by
  induction ts with
  | nil =>
    intro acc res h hn hb
    unfold collectDays at h
    cases h
    exact ⟨hn, hb⟩
  | cons t ts ih =>
    intro acc res h hn hb
    simp only [collectDays] at h
    split at h
    · exact ih acc res h hn hb
    · split at h
      · rename_i v hv
        split at h
        · exact ih acc res h hn hb
        · rename_i hnotmem
          refine ih _ res h ?_ ?_
          · simp only [List.nodup_append, List.nodup_cons, List.nodup_nil]
            exact ⟨hn, by simp, by simpa using hnotmem⟩
          · intro d hd
            rcases List.mem_append.mp hd with hd | hd
            · exact hb d hd
            · rcases List.mem_singleton.mp hd with rfl
              exact day_number_le _ _ hv
      · exact absurd h (by simp)

theorem parse_day_list_spec (input : List Char) (dl : DayList)
    (h : parse_day_list input = some dl) :
    dl.days ≠ [] ∧ dl.days.Pairwise (· < ·) ∧ (∀ d ∈ dl.days, d ≤ 6) ∧
      dl.cron_value = joinSep (str ",") (dl.days.map natToChars) := by
  simp only [parse_day_list] at h
  cases hc : collectDays (splitWhitespace (replaceSub (str " and ") (str " ")
      ((input.map (fun c => if c = ',' then ' ' else c)).map
        (fun c => if c = '&' then ' ' else c)))) [] with
  | none => simp only [hc] at h; exact absurd h (by simp)
  | some days =>
    simp only [hc] at h
    by_cases hd : days = []
    · rw [if_pos hd] at h; exact absurd h (by simp)
    · rw [if_neg hd] at h
      obtain ⟨hn, hb⟩ := collectDays_spec _ [] days hc (by simp) (by simp)
      injection h with h
      subst h
      refine ⟨?_, sortAsc_pairwise_lt days hn, ?_, rfl⟩
      · intro he
        have he2 : sortAsc days = [] := he
        have hlen := (sortAsc_perm days).length_eq
        rw [he2] at hlen
        exact hd (List.eq_nil_of_length_eq_zero (by simpa using hlen.symm))
      · intro d hd2
        exact hb d ((sortAsc_perm days).mem_iff.mp hd2)

theorem collectDoms_spec (ts : List (List Char)) :
    ∀ acc, acc.Nodup → (∀ v ∈ acc, 1 ≤ v ∧ v ≤ 31) →
      (collectDoms ts acc).Nodup ∧ (∀ v ∈ collectDoms ts acc, 1 ≤ v ∧ v ≤ 31) := by
  induction ts with
  | nil => intro acc hn hb; exact ⟨hn, hb⟩
  | cons t ts ih =>
    intro acc hn hb
    simp only [collectDoms]
    split
    · exact ih acc hn hb
    · split
      · exact ih acc hn hb
      · split
        · rename_i v hv
          split
          · rename_i hcond
            refine ih _ ?_ ?_
            · simp only [List.nodup_append, List.nodup_cons, List.nodup_nil]
              exact ⟨hn, by simp, by simpa using hcond.2.2⟩
            · intro d hd
              rcases List.mem_append.mp hd with hd | hd
              · exact hb d hd
              · rcases List.mem_singleton.mp hd with rfl
                exact ⟨hcond.1, hcond.2.1⟩
          · exact ih acc hn hb
        · exact ih acc hn hb

theorem parse_dom_list_spec (raw : List Char) (dom : DomList)
    (h : parse_dom_list raw = some dom) :
    ∃ values : List Nat, values ≠ [] ∧ values.Pairwise (· < ·) ∧
      (∀ v ∈ values, 1 ≤ v ∧ v ≤ 31) ∧
      dom.cron_value = joinSep (str ",") (values.map natToChars) := by
  simp only [parse_dom_list] at h
  split at h
  · exact absurd h (by simp)
  · rename_i hvals
    injection h with h
    subst h
    obtain ⟨hn, hb⟩ := collectDoms_spec (splitWhitespace (domNormalize raw)) [] (by simp) (by simp)
    refine ⟨sortAsc (collectDoms (splitWhitespace (domNormalize raw)) []), ?_,
      sortAsc_pairwise_lt _ hn, ?_, rfl⟩
    · intro he
      have hlen := (sortAsc_perm (collectDoms (splitWhitespace (domNormalize raw)) [])).length_eq
      rw [he] at hlen
      exact hvals (List.eq_nil_of_length_eq_zero (by simpa using hlen.symm))
    · intro v hv
      exact hb v ((sortAsc_perm _).mem_iff.mp hv)

/-! The Schedule Record invariant of the specification. -/

/-- One cron field is populated, and when it is purely numeric its value lies
in the stated domain. -/
def numericInDomain (f : List Char) (lo hi : Nat) : Prop :=
  f ≠ [] ∧ (f.all isDigitC = true → lo ≤ natOfDigits f ∧ natOfDigits f ≤ hi)

/-- The Schedule Record invariant claimed by the specification: five populated
fields, the month field star, numeric fields within their domains. -/
def specInvariant (sp : CronSpec) : Prop :=
  numericInDomain sp.minute 0 59 ∧ numericInDomain sp.hour 0 23 ∧
    numericInDomain sp.day_of_month 1 31 ∧ sp.month = str "*" ∧
    numericInDomain sp.day_of_week 0 6

theorem numericInDomain_natToChars (m lo hi : Nat) (h1 : lo ≤ m) (h2 : m ≤ hi) :
    numericInDomain (natToChars m) lo hi := by
  refine ⟨natToChars_ne_nil m, fun _ => ?_⟩
  rw [natOfDigits_natToChars]
  exact ⟨h1, h2⟩

theorem numericInDomain_starSlash (n lo hi : Nat) :
    numericInDomain (str "*/" ++ natToChars n) lo hi := by
  refine ⟨by simp [str], fun hall => ?_⟩
  exfalso
  have : isDigitC '*' = true := by
    have h2 : '*' ∈ str "*/" ++ natToChars n := by simp [str]
    exact (List.all_eq_true.mp hall) '*' h2
  exact absurd this (by decide)

theorem numericInDomain_join (values : List Nat) (lo hi : Nat)
    (h0 : values ≠ []) (hb : ∀ v ∈ values, lo ≤ v ∧ v ≤ hi) :
    numericInDomain (joinSep (str ",") (values.map natToChars)) lo hi := by
  cases values with
  | nil => exact absurd rfl h0
  | cons v vs =>
    cases vs with
    | nil =>
      have hj : joinSep (str ",") ([v].map natToChars) = natToChars v := rfl
      rw [List.map_cons, List.map_nil] at hj ⊢
      rw [hj]
      obtain ⟨h1, h2⟩ := hb v (by simp)
      exact numericInDomain_natToChars v lo hi h1 h2
    | cons w ws =>
      refine ⟨?_, fun hall => ?_⟩
      · simp only [List.map_cons, joinSep]
        intro he
        simp only [List.append_eq_nil] at he
        exact natToChars_ne_nil v he.1.1
      · exfalso
        have hmem : ',' ∈ joinSep (str ",") ((v :: w :: ws).map natToChars) := by
          simp only [List.map_cons, joinSep]
          refine List.mem_append.mpr (Or.inl ?_)
          refine List.mem_append.mpr (Or.inr ?_)
          simp [str]
        have := (List.all_eq_true.mp hall) ',' hmem
        exact absurd this (by decide)

theorem numericInDomain_star (lo hi : Nat) : numericInDomain (str "*") lo hi := by
  refine ⟨by simp [str], fun hall => ?_⟩
  exfalso
  have : isDigitC '*' = true := (List.all_eq_true.mp hall) '*' (by simp [str])
  exact absurd this (by decide)

/-! Bounds produced by the clock-time parser. -/

theorem timeFromParts_bounds (hp : List Char) (mp : Option (List Char))
    (mer : Option Meridian) (h m : Nat)
    (heq : timeFromParts hp mp mer = some (h, m)) : h ≤ 23 ∧ m ≤ 59 := by
  unfold timeFromParts at heq
  repeat' split at heq
  all_goals simp at heq
  all_goals omega

theorem timeSplit_bounds (fragment : List Char) (mer : Option Meridian) (h m : Nat)
    (heq : timeSplit fragment mer = some (h, m)) : h ≤ 23 ∧ m ≤ 59 := by
  unfold timeSplit at heq
  split at heq
  · exact timeFromParts_bounds _ _ _ _ _ heq
  · exact timeFromParts_bounds _ _ _ _ _ heq
  · exact absurd heq (by simp)

theorem timeCore_bounds (fragment : List Char) (h m : Nat)
    (heq : timeCore fragment = some (h, m)) : h ≤ 23 ∧ m ≤ 59 := by
  unfold timeCore at heq
  split at heq
  · exact timeSplit_bounds _ _ _ _ heq
  · split at heq
    · exact timeSplit_bounds _ _ _ _ heq
    · exact timeSplit_bounds _ _ _ _ heq

theorem parse_time_fragment_bounds (raw : List Char) (h m : Nat)
    (heq : parse_time_fragment raw = some (h, m)) : h ≤ 23 ∧ m ≤ 59 := by
  simp only [parse_time_fragment] at heq
  split at heq
  · injection heq with heq; injection heq with h1 h2; omega
  · split at heq
    · injection heq with heq; injection heq with h1 h2; omega
    · exact timeCore_bounds _ _ _ heq

/-- A populated field containing some non-digit character vacuously meets the
numeric-domain constraint. -/
theorem numericInDomain_of_nonDigit (f : List Char) (c : Char) (lo hi : Nat)
    (hne : f ≠ []) (hmem : c ∈ f) (hc : isDigitC c = false) :
    numericInDomain f lo hi := by
  refine ⟨hne, fun hall => ?_⟩
  have := (List.all_eq_true.mp hall) c hmem
  rw [hc] at this
  exact absurd this (by simp)

/-! Every recognizer output satisfies the Schedule Record invariant. -/

theorem try_parse_every_minutes_inv (input : List Char) (sp : CronSpec)
    (h : try_parse_every_minutes input = some sp) : specInvariant sp := by
  unfold try_parse_every_minutes at h
  cases hm : matchEveryMinutes input with
  | none => rw [hm] at h; exact absurd h (by simp)
  | some ncap =>
    rw [hm] at h
    simp only [Option.map_some'] at h
    injection h with h
    subst h
    refine ⟨?_, numericInDomain_star _ _, numericInDomain_star _ _, rfl,
      numericInDomain_star _ _⟩
    simp only
    split
    · exact numericInDomain_star _ _
    · exact numericInDomain_starSlash _ _ _

theorem try_parse_hourly_inv (input : List Char) (sp : CronSpec)
    (h : try_parse_hourly input = some sp) : specInvariant sp := by
  unfold try_parse_hourly at h
  cases hh : matchHourlyHead input with
  | none => rw [hh] at h; exact absurd h (by simp)
  | some r =>
    simp only [hh] at h
    cases hm : matchAtColonMM r with
    | none => simp only [hm, Option.map_none'] at h; exact absurd h (by simp)
    | some mcap =>
      simp only [hm, Option.map_some'] at h
      injection h with h
      subst h
      refine ⟨?_, numericInDomain_star _ _, numericInDomain_star _ _, rfl,
        numericInDomain_star _ _⟩
      apply numericInDomain_natToChars _ _ _ (Nat.zero_le _)
      cases mcap with
      | none => exact Nat.zero_le 59
      | some d => exact min_le_right _ _

theorem try_parse_every_hours_inv (input : List Char) (sp : CronSpec)
    (h : try_parse_every_hours input = some sp) : specInvariant sp := by
  unfold try_parse_every_hours at h
  cases hm : matchEveryHours input with
  | none => rw [hm] at h; exact absurd h (by simp)
  | some caps =>
    obtain ⟨ncap, mcap⟩ := caps
    simp only [hm] at h
    injection h with h
    subst h
    refine ⟨?_, ?_, numericInDomain_star _ _, rfl, numericInDomain_star _ _⟩
    · apply numericInDomain_natToChars _ _ _ (Nat.zero_le _)
      cases mcap with
      | none => exact Nat.zero_le 59
      | some d => exact min_le_right _ _
    · simp only
      split
      · exact numericInDomain_star _ _
      · exact numericInDomain_starSlash _ _ _

theorem try_parse_daily_inv (input : List Char) (sp : CronSpec)
    (h : try_parse_daily input = some sp) : specInvariant sp := by
  unfold try_parse_daily at h
  cases hd : matchDailyHead input with
  | none => rw [hd] at h; exact absurd h (by simp)
  | some r =>
    simp only [hd] at h
    cases ht : matchOptAtThenTime r with
    | none => simp only [ht] at h; exact absurd h (by simp)
    | some t =>
      simp only [ht] at h
      cases hp : parse_time_fragment t with
      | none => simp only [hp, Option.map_none'] at h; exact absurd h (by simp)
      | some hm2 =>
        simp only [hp] at h
        obtain ⟨hh, mm⟩ := hm2
        obtain ⟨hb1, hb2⟩ := parse_time_fragment_bounds t hh mm hp
        simp only [Option.map_some'] at h
        injection h with h
        subst h
        exact ⟨numericInDomain_natToChars _ _ _ (Nat.zero_le _) hb2,
          numericInDomain_natToChars _ _ _ (Nat.zero_le _) hb1,
          numericInDomain_star _ _, rfl, numericInDomain_star _ _⟩

theorem try_parse_weekdayish_inv (input : List Char) (sp : CronSpec)
    (h : try_parse_weekdayish input = some sp) : specInvariant sp := by
  unfold try_parse_weekdayish at h
  cases hm : matchWeekdayish input with
  | none => rw [hm] at h; exact absurd h (by simp)
  | some kt =>
    obtain ⟨kind, t⟩ := kt
    simp only [hm] at h
    cases hp : parse_time_fragment t with
    | none => simp only [hp, Option.map_none'] at h; exact absurd h (by simp)
    | some hm2 =>
      simp only [hp] at h
      obtain ⟨hh, mm⟩ := hm2
      obtain ⟨hb1, hb2⟩ := parse_time_fragment_bounds t hh mm hp
      simp only [Option.map_some'] at h
      injection h with h
      subst h
      refine ⟨numericInDomain_natToChars _ _ _ (Nat.zero_le _) hb2,
        numericInDomain_natToChars _ _ _ (Nat.zero_le _) hb1,
        numericInDomain_star _ _, rfl, ?_⟩
      simp only
      split
      · exact numericInDomain_of_nonDigit _ ',' 0 6 (by simp [str]) (by simp [str]) (by decide)
      · exact numericInDomain_of_nonDigit _ '-' 0 6 (by simp [str]) (by simp [str]) (by decide)

theorem try_parse_specific_days_inv (input : List Char) (sp : CronSpec)
    (h : try_parse_specific_days input = some sp) : specInvariant sp := by
  unfold try_parse_specific_days at h
  split at h
  · exact absurd h (by simp)
  · rename_i pr hsplit
    split at h
    · exact absurd h (by simp)
    · rename_i dl hdl
      split at h
      · exact absurd h (by simp)
      · rename_i hm2 hp
        obtain ⟨hne, hsort, hb, hcron⟩ := parse_day_list_spec _ _ hdl
        obtain ⟨hb1, hb2⟩ := parse_time_fragment_bounds _ hm2.1 hm2.2 (by
          rw [hp])
        injection h with h
        subst h
        refine ⟨numericInDomain_natToChars _ _ _ (Nat.zero_le _) hb2,
          numericInDomain_natToChars _ _ _ (Nat.zero_le _) hb1,
          numericInDomain_star _ _, rfl, ?_⟩
        simp only
        rw [hcron]
        exact numericInDomain_join dl.days 0 6 hne
          (fun d hd => ⟨Nat.zero_le d, hb d hd⟩)

theorem numericInDomain_one : numericInDomain (str "1") 1 31 := by
  have h : str "1" = natToChars 1 := by decide
  rw [h]
  exact numericInDomain_natToChars 1 1 31 (le_refl 1) (by omega)

theorem try_parse_monthly_inv (input : List Char) (sp : CronSpec)
    (h : try_parse_monthly input = some sp) : specInvariant sp := by
  simp only [try_parse_monthly] at h
  split at h
  · split at h
    · exact absurd h (by simp)
    · split at h
      · split at h
        · exact absurd h (by simp)
        · rename_i pr hsplit
          split at h
          · exact absurd h (by simp)
          · rename_i dom hdom
            split at h
            · exact absurd h (by simp)
            · rename_i hm2 hp
              obtain ⟨values, hne, hsort, hb, hcron⟩ := parse_dom_list_spec _ _ hdom
              obtain ⟨hb1, hb2⟩ := parse_time_fragment_bounds _ hm2.1 hm2.2 (by rw [hp])
              injection h with h
              subst h
              refine ⟨numericInDomain_natToChars _ _ _ (Nat.zero_le _) hb2,
                numericInDomain_natToChars _ _ _ (Nat.zero_le _) hb1, ?_, rfl,
                numericInDomain_star _ _⟩
              simp only
              rw [hcron]
              exact numericInDomain_join values 1 31 hne hb
      · split at h
        · rename_i timePart htp
          cases hp : parse_time_fragment timePart with
          | none => rw [hp] at h; exact absurd h (by simp)
          | some hm2 =>
            rw [hp] at h
            obtain ⟨hh, mm⟩ := hm2
            obtain ⟨hb1, hb2⟩ := parse_time_fragment_bounds _ hh mm hp
            simp only [Option.map_some'] at h
            injection h with h
            subst h
            exact ⟨numericInDomain_natToChars _ _ _ (Nat.zero_le _) hb2,
              numericInDomain_natToChars _ _ _ (Nat.zero_le _) hb1,
              numericInDomain_one, rfl, numericInDomain_star _ _⟩
        · exact absurd h (by simp)
  · exact absurd h (by simp)

theorem try_parse_on_days_inv (input : List Char) (sp : CronSpec)
    (h : try_parse_on_days input = some sp) : specInvariant sp := by
  simp only [try_parse_on_days] at h
  split at h
  · split at h
    · exact absurd h (by simp)
    · rename_i pr hsplit
      split at h
      · exact absurd h (by simp)
      · rename_i dom hdom
        split at h
        · exact absurd h (by simp)
        · rename_i hm2 hp
          obtain ⟨values, hne, hsort, hb, hcron⟩ := parse_dom_list_spec _ _ hdom
          obtain ⟨hb1, hb2⟩ := parse_time_fragment_bounds _ hm2.1 hm2.2 (by rw [hp])
          injection h with h
          subst h
          refine ⟨numericInDomain_natToChars _ _ _ (Nat.zero_le _) hb2,
            numericInDomain_natToChars _ _ _ (Nat.zero_le _) hb1, ?_, rfl,
            numericInDomain_star _ _⟩
          simp only
          rw [hcron]
          exact numericInDomain_join values 1 31 hne hb
  · exact absurd h (by simp)

/-! The ordered cascade. -/

theorem firstMatch_some (fs : List (List Char → Option CronSpec)) (x : List Char)
    (sp : CronSpec) (h : firstMatch fs x = some sp) :
    ∃ f ∈ fs, f x = some sp := by
  induction fs with
  | nil => exact absurd h (by simp [firstMatch])
  | cons f fs ih =>
    unfold firstMatch at h
    cases hf : f x with
    | none =>
      rw [hf] at h
      obtain ⟨g, hg, hgx⟩ := ih h
      exact ⟨g, List.mem_cons_of_mem f hg, hgx⟩
    | some sp2 =>
      rw [hf] at h
      injection h with h
      subst h
      exact ⟨f, List.mem_cons_self f fs, hf⟩

theorem firstMatch_eq_none (fs : List (List Char → Option CronSpec)) (x : List Char) :
    firstMatch fs x = none ↔ ∀ f ∈ fs, f x = none := by
  induction fs with
  | nil => simp [firstMatch]
  | cons f fs ih =>
    unfold firstMatch
    cases hf : f x with
    | none => simp [hf, ih]
    | some sp => simp [hf]

/-- Decidable equality for `Except`, used to evaluate concrete parses. -/
instance exceptDecEq {e a : Type} [DecidableEq e] [DecidableEq a] :
    DecidableEq (Except e a)
  | .error x, .error y =>
    if h : x = y then .isTrue (by rw [h])
    else .isFalse (fun he => by injection he with h2; exact h h2)
  | .error _, .ok _ => .isFalse (fun he => Except.noConfusion he)
  | .ok _, .error _ => .isFalse (fun he => Except.noConfusion he)
  | .ok x, .ok y =>
    if h : x = y then .isTrue (by rw [h])
    else .isFalse (fun he => by injection he with h2; exact h h2)

/-- C1 (amended): whenever `parse_expression` succeeds on an input that the
raw recognizer does not claim, the resulting Schedule Record has all five
cron fields nonempty, month equal to star, and every purely numeric field
within its domain.  The raw recognizer, by contrast, passes its five tokens
through without validation (see the counterexample). -/
theorem c1_nonraw_invariant (s : List Char) (sp : CronSpec)
    (hok : parse_expression s = .ok sp)
    (hraw : try_parse_raw (trim s) = none) : specInvariant sp := by
  simp only [parse_expression] at hok
  split at hok
  · exact absurd hok (by simp)
  · simp only [hraw] at hok
    cases hfm : firstMatch recognizers (normalize_input (trim s)) with
    | none => simp only [hfm] at hok; exact absurd hok (by simp)
    | some sp2 =>
      simp only [hfm] at hok
      injection hok with hok
      subst hok
      obtain ⟨f, hmem, hf⟩ := firstMatch_some _ _ _ hfm
      simp only [recognizers, List.mem_cons, List.not_mem_nil, or_false] at hmem
      rcases hmem with rfl | rfl | rfl | rfl | rfl | rfl | rfl | rfl
      · exact try_parse_every_minutes_inv _ _ hf
      · exact try_parse_hourly_inv _ _ hf
      · exact try_parse_every_hours_inv _ _ hf
      · exact try_parse_daily_inv _ _ hf
      · exact try_parse_weekdayish_inv _ _ hf
      · exact try_parse_specific_days_inv _ _ hf
      · exact try_parse_monthly_inv _ _ hf
      · exact try_parse_on_days_inv _ _ hf

/-- C1 counterexample: the raw recognizer passes `99 99 99 99 99` through, so
`parse_expression` succeeds with a month field distinct from star and a
purely numeric minute field far above 59, refuting the invariant as stated
for raw inputs. -/
theorem c1_counterexample :
    parse_expression (str "99 99 99 99 99") =
      .ok ⟨str "99", str "99", str "99", str "99", str "99", str "Raw cron expression"⟩ ∧
    str "99" ≠ str "*" ∧ ¬ natOfDigits (str "99") ≤ 59 := by
  exact ⟨by decide, by decide, by decide⟩

/-- C1 witness: a concrete non-raw success satisfying the invariant. -/
theorem c1_witness :
    parse_expression (str "weekdays at 07:15") =
      .ok ⟨str "15", str "7", str "*", str "*", str "1-5", str "Weekdays at 07:15"⟩ ∧
    specInvariant ⟨str "15", str "7", str "*", str "*", str "1-5", str "Weekdays at 07:15"⟩ := by
  refine ⟨by decide, ?_⟩
  exact c1_nonraw_invariant (str "weekdays at 07:15") _ (by decide) (by decide)

/-- C3: an input trimming to exactly five tokens over the raw character class
is claimed by the raw recognizer ahead of the cascade, and the five tokens
pass through unchanged with the raw-cron explanation. -/
theorem c3_raw_first (s p0 p1 p2 p3 p4 : List Char)
    (hsplit : splitWhitespace (trim s) = [p0, p1, p2, p3, p4])
    (hok : (p0.all rawCharOk && p1.all rawCharOk && p2.all rawCharOk
        && p3.all rawCharOk && p4.all rawCharOk) = true) :
    parse_expression s = .ok ⟨p0, p1, p2, p3, p4, str "Raw cron expression"⟩ := by
  have hne : trim s ≠ [] := by
    intro he
    rw [he] at hsplit
    simp [splitWhitespace, splitWsAux] at hsplit
  have hraw : try_parse_raw (trim s) =
      some ⟨p0, p1, p2, p3, p4, str "Raw cron expression"⟩ := by
    unfold try_parse_raw
    simp only [hsplit]
    exact if_pos hok
  simp only [parse_expression]
  rw [if_neg hne, hraw]

/-- C3 witness: the motivating example, five tokens passing through exactly. -/
theorem c3_witness :
    parse_expression (str "30 3 * * 1") =
      .ok ⟨str "30", str "3", str "*", str "*", str "1", str "Raw cron expression"⟩ :=
  c3_raw_first (str "30 3 * * 1") (str "30") (str "3") (str "*") (str "*") (str "1")
    (by decide) (by decide)

/-- C8: the three outcomes of `parse_expression` are exhaustive and mutually
characterized: the empty-expression error appears exactly on blank input, the
unsupported-phrasing error exactly on nonblank input that no recognizer
matches, and a Schedule Record exactly otherwise; the concrete phrases behave
as the specification states. -/
theorem c8_error_taxonomy :
    (∀ s : List Char,
      (parse_expression s = .error .emptyExpression ↔ trim s = []) ∧
      (parse_expression s = .error .unsupportedPhrasing ↔
        (trim s ≠ [] ∧ try_parse_raw (trim s) = none ∧
          ∀ f ∈ recognizers, f (normalize_input (trim s)) = none)) ∧
      ((∃ sp, parse_expression s = .ok sp) ↔
        (trim s ≠ [] ∧ ¬ (try_parse_raw (trim s) = none ∧
          ∀ f ∈ recognizers, f (normalize_input (trim s)) = none)))) ∧
    parse_expression (str "sometime soon") = .error .unsupportedPhrasing ∧
    parse_expression (str "") = .error .emptyExpression ∧
    parse_expression (str "   ") = .error .emptyExpression := by
  refine ⟨?_, by decide, by decide, by decide⟩
  intro s
  by_cases h0 : trim s = []
  · have hpe : parse_expression s = .error .emptyExpression := by
      simp only [parse_expression, h0, if_pos]
    refine ⟨by simp [hpe, h0], ?_, ?_⟩
    · constructor
      · intro hcon
        rw [hpe] at hcon
        injection hcon with hcon
        exact absurd hcon (by simp)
      · rintro ⟨hne, -⟩
        exact absurd h0 hne
    · constructor
      · rintro ⟨sp, hsp⟩
        rw [hpe] at hsp
        exact absurd hsp (by simp)
      · rintro ⟨hne, -⟩
        exact absurd h0 hne
  · cases hr : try_parse_raw (trim s) with
    | some spec =>
      have hpe : parse_expression s = .ok spec := by
        simp only [parse_expression]
        rw [if_neg h0, hr]
      refine ⟨by simp [hpe, h0], ?_, ?_⟩
      · constructor
        · intro hcon
          rw [hpe] at hcon
          exact absurd hcon (by simp)
        · rintro ⟨-, hcon, -⟩
          exact absurd hcon (by simp)
      · constructor
        · intro _
          exact ⟨h0, fun hcon => absurd hcon.1 (by simp)⟩
        · intro _
          exact ⟨spec, hpe⟩
    | none =>
      cases hfm : firstMatch recognizers (normalize_input (trim s)) with
      | some sp =>
        have hpe : parse_expression s = .ok sp := by
          simp only [parse_expression]
          rw [if_neg h0, hr, hfm]
        have hnotall : ¬ ∀ f ∈ recognizers, f (normalize_input (trim s)) = none := by
          intro hall
          rw [(firstMatch_eq_none recognizers (normalize_input (trim s))).mpr hall] at hfm
          exact absurd hfm (by simp)
        refine ⟨by simp [hpe, h0], ?_, ?_⟩
        · constructor
          · intro hcon
            rw [hpe] at hcon
            exact absurd hcon (by simp)
          · rintro ⟨-, -, hall⟩
            exact absurd hall hnotall
        · constructor
          · intro _
            exact ⟨h0, fun hcon => hnotall hcon.2⟩
          · intro _
            exact ⟨sp, hpe⟩
      | none =>
        have hpe : parse_expression s = .error .unsupportedPhrasing := by
          simp only [parse_expression]
          rw [if_neg h0, hr, hfm]
        have hall := (firstMatch_eq_none recognizers (normalize_input (trim s))).mp hfm
        refine ⟨by simp [hpe, h0], ?_, ?_⟩
        · constructor
          · intro _
            exact ⟨h0, rfl, hall⟩
          · intro _
            exact hpe
        · constructor
          · rintro ⟨sp, hsp⟩
            rw [hpe] at hsp
            exact absurd hsp (by simp)
          · rintro ⟨-, hcon⟩
            exact absurd ⟨rfl, hall⟩ hcon

/-- C6: the weekday-list parser normalizes `mon wednesday` and
`Mondays, Wednesdays` to the same deduplicated ascending set with cron value
`1,3`, and in general every successful weekday-list parse is strictly
ascending (hence deduplicated) with the comma-joined cron value. -/
theorem c6_weekday_list :
    parse_day_list (str "mon wednesday") = some ⟨str "1,3", [1, 3]⟩ ∧
    parse_day_list (str "Mondays, Wednesdays") = some ⟨str "1,3", [1, 3]⟩ ∧
    ∀ s dl, parse_day_list s = some dl →
      dl.days.Pairwise (· < ·) ∧
      dl.cron_value = joinSep (str ",") (dl.days.map natToChars) := by
  refine ⟨by decide, by decide, ?_⟩
  intro s dl h
  obtain ⟨-, hs, -, hc⟩ := parse_day_list_spec s dl h
  exact ⟨hs, hc⟩

/-- C6 witness: the general sortedness and join shape evaluated on the
concrete parse of `mon wednesday`. -/
theorem c6_witness :
    List.Pairwise (· < ·) ([1, 3] : List Nat) ∧
    str "1,3" = joinSep (str ",") (([1, 3] : List Nat).map natToChars) :=
  c6_weekday_list.2.2 (str "mon wednesday") ⟨str "1,3", [1, 3]⟩ (by decide)

/-- C4: the clock-time parser round-trips every zero-padded 24-hour time. -/
theorem c4_clock_roundtrip (h m : Nat) (hh : h ≤ 23) (hm : m ≤ 59) :
    parse_time_fragment (pad2 h ++ str ":" ++ pad2 m) = some (h, m) := by
  have key : ∀ h2 < 24, ∀ m2 < 60,
      parse_time_fragment (pad2 h2 ++ str ":" ++ pad2 m2) = some (h2, m2) := by decide
  exact key h (by omega) m (by omega)

/-- C4 witness: the round trip at 07:15. -/
theorem c4_witness : parse_time_fragment (pad2 7 ++ str ":" ++ pad2 15) = some (7, 15) :=
  c4_clock_roundtrip 7 15 (by decide) (by decide)

/-! Symbolic evaluation of the clock-time parser on digit strings with a
meridian suffix. -/

theorem toLowerChar_digit (c : Char) (h : isDigitC c = true) : toLowerChar c = c := by
  unfold toLowerChar
  rw [if_neg]
  unfold isDigitC at h
  intro hcon
  simp only [decide_eq_true_eq] at h
  omega

theorem toLowerStr_eq_self (l : List Char) (h : ∀ c ∈ l, toLowerChar c = c) :
    toLowerStr l = l := by
  induction l with
  | nil => rfl
  | cons c cs ih =>
    unfold toLowerStr at ih ⊢
    rw [List.map_cons, h c (by simp), ih (fun d hd => h d (by simp [hd]))]

theorem isDigitC_not_ws (c : Char) (h : isDigitC c = true) : isWs c = false := by
  unfold isDigitC at h
  simp only [decide_eq_true_eq] at h
  unfold isWs
  have h1 : c ≠ ' ' := by intro he; subst he; exact absurd h (by decide)
  have h2 : c ≠ '\t' := by intro he; subst he; exact absurd h (by decide)
  have h3 : c ≠ '\n' := by intro he; subst he; exact absurd h (by decide)
  have h4 : c ≠ '\r' := by intro he; subst he; exact absurd h (by decide)
  simp [h1, h2, h3, h4]

theorem isDigitC_not_space (c : Char) (h : isDigitC c = true) : (c == ' ') = false := by
  have : c ≠ ' ' := by
    intro he; subst he; exact absurd h (by decide)
  simp [this]

theorem isDigitC_not_colon (c : Char) (h : isDigitC c = true) : c ≠ ':' := by
  intro he; subst he; exact absurd h (by decide)

theorem splitOnChar_of_no_sep (sep : Char) (l : List Char) (h : ∀ c ∈ l, c ≠ sep) :
    splitOnChar sep l = [l] := by
  induction l with
  | nil => rfl
  | cons c cs ih =>
    unfold splitOnChar
    rw [ih (fun d hd => h d (by simp [hd]))]
    have hcs : ¬ c = sep := h c (by simp)
    simp [hcs]

theorem stripSuffix_two (a b c d : Char) (xs : List Char) :
    stripSuffix [a, b] (xs ++ [c, d]) = if c = a ∧ d = b then some xs else none := by
  unfold stripSuffix
  have hlen : ([a, b] : List Char).length ≤ (xs ++ [c, d]).length := by simp
  have harith : (xs ++ [c, d]).length - ([a, b] : List Char).length = xs.length := by simp
  rw [harith]
  rw [List.drop_left, List.take_left]
  by_cases hcd : c = a ∧ d = b
  · obtain ⟨rfl, rfl⟩ := hcd
    rw [if_pos ⟨hlen, rfl⟩, if_pos ⟨rfl, rfl⟩]
  · rw [if_neg hcd, if_neg]
    intro hcon
    apply hcd
    have h2 := hcon.2
    injection h2 with e1 h3
    injection h3 with e2 _
    exact ⟨e1, e2⟩

/-- Front end of the clock-time parser on a digit string followed by a clean
two-character tail: trimming, lowercasing, the literal checks and the blank
filter all leave the input unchanged. -/
theorem ptf_digits_tail (n : Nat) (c1 c2 : Char)
    (hw : isWs c2 = false)
    (hl1 : toLowerChar c1 = c1) (hl2 : toLowerChar c2 = c2)
    (hs1 : (c1 == ' ') = false) (hs2 : (c2 == ' ') = false) :
    parse_time_fragment (natToChars n ++ [c1, c2]) =
      timeCore (natToChars n ++ [c1, c2]) := by
  have hall := natToChars_all_digit n
  have hdig : ∀ c ∈ natToChars n, isDigitC c = true := fun c hc =>
    (List.all_eq_true.mp hall) c hc
  obtain ⟨d, ds, hnc⟩ : ∃ d ds, natToChars n = d :: ds := by
    cases hnc : natToChars n with
    | nil => exact absurd hnc (natToChars_ne_nil n)
    | cons d ds => exact ⟨d, ds, rfl⟩
  have hd : isDigitC d = true := hdig d (by rw [hnc]; simp)
  have htrim : trim (natToChars n ++ [c1, c2]) = natToChars n ++ [c1, c2] := by
    apply trim_eq_self_of_noEdgeWs
    unfold noEdgeWs
    rw [hnc]
    have hhead : ((d :: ds ++ [c1, c2]).head? : Option Char) = some d := by simp
    have hlast : ((d :: ds ++ [c1, c2]).getLast? : Option Char) = some c2 := by
      rw [show (d :: ds ++ [c1, c2] : List Char) = (d :: ds) ++ [c1, c2] by simp]
      rw [List.getLast?_append_of_ne_nil _ (by simp)]
      rfl
    rw [hhead, hlast]
    simp [isDigitC_not_ws d hd, hw]
  have hlow : toLowerStr (natToChars n ++ [c1, c2]) = natToChars n ++ [c1, c2] := by
    apply toLowerStr_eq_self
    intro c hc
    rcases List.mem_append.mp hc with hc | hc
    · exact toLowerChar_digit c (hdig c hc)
    · simp only [List.mem_cons, List.not_mem_nil, or_false] at hc
      rcases hc with rfl | rfl
      · exact hl1
      · exact hl2
  have hnm : natToChars n ++ [c1, c2] ≠ str "midnight" := by
    rw [hnc]
    intro he
    rw [List.cons_append] at he
    injection he with he1 _
    rw [he1] at hd
    exact absurd hd (by decide)
  have hnn : natToChars n ++ [c1, c2] ≠ str "noon" := by
    rw [hnc]
    intro he
    rw [List.cons_append] at he
    injection he with he1 _
    rw [he1] at hd
    exact absurd hd (by decide)
  have hfil : (natToChars n ++ [c1, c2]).filter (fun c => !(c == ' ')) =
      natToChars n ++ [c1, c2] := by
    apply List.filter_eq_self.mpr
    intro c hc
    rcases List.mem_append.mp hc with hc | hc
    · simp [isDigitC_not_space c (hdig c hc)]
    · simp only [List.mem_cons, List.not_mem_nil, or_false] at hc
      rcases hc with rfl | rfl
      · simp [hs1]
      · simp [hs2]
  simp only [parse_time_fragment, htrim, hlow, hfil]
  rw [if_neg hnm, if_neg hnn]

theorem timeCore_digits_pm (n : Nat) :
    timeCore (natToChars n ++ str "pm") =
      timeFromParts (natToChars n) none (some Meridian.pm) := by
  have hsplit : splitOnChar ':' (natToChars n) = [natToChars n] :=
    splitOnChar_of_no_sep ':' (natToChars n) (fun c hc =>
      isDigitC_not_colon c ((List.all_eq_true.mp (natToChars_all_digit n)) c hc))
  have hpm : str "pm" = ['p', 'm'] := rfl
  have ham : (str "am" : List Char) = ['a', 'm'] := rfl
  unfold timeCore
  rw [hpm, ham, stripSuffix_two 'a' 'm' 'p' 'm' (natToChars n),
    stripSuffix_two 'p' 'm' 'p' 'm' (natToChars n)]
  rw [if_neg (by simp), if_pos ⟨rfl, rfl⟩]
  show timeSplit (natToChars n) (some Meridian.pm) = _
  unfold timeSplit
  rw [hsplit]

theorem timeCore_digits_am (n : Nat) :
    timeCore (natToChars n ++ str "am") =
      timeFromParts (natToChars n) none (some Meridian.am) := by
  have hsplit : splitOnChar ':' (natToChars n) = [natToChars n] :=
    splitOnChar_of_no_sep ':' (natToChars n) (fun c hc =>
      isDigitC_not_colon c ((List.all_eq_true.mp (natToChars_all_digit n)) c hc))
  have ham : (str "am" : List Char) = ['a', 'm'] := rfl
  unfold timeCore
  rw [ham, stripSuffix_two 'a' 'm' 'a' 'm' (natToChars n)]
  rw [if_pos ⟨rfl, rfl⟩]
  show timeSplit (natToChars n) (some Meridian.am) = _
  unfold timeSplit
  rw [hsplit]

theorem parseU32_natToChars_overflow (n : Nat) (h : 2 ^ 32 ≤ n) :
    parseU32 (natToChars n) = none := by
  have hne := natToChars_ne_nil n
  have hall := natToChars_all_digit n
  have hval := natOfDigits_natToChars n
  have hplus : startsWithL (str "+") (natToChars n) = false := by
    cases hnc : natToChars n with
    | nil => exact absurd hnc hne
    | cons c cs =>
      have hc : isDigitC c = true := natToChars_head_digit n c (by rw [hnc]; rfl)
      have hb : ('+' == c) = false := by
        cases he : '+' == c
        · rfl
        · exfalso; rw [beq_iff_eq] at he; rw [← he] at hc; exact absurd hc (by decide)
      show (('+' == c) && startsWithL [] cs) = false
      rw [hb]; rfl
  simp [parseU32, hplus, hne, hall, hval]
  omega

/-- C5: the clock-time parser maps the named and meridian phrases exactly as
specified, and in general with a meridian suffix present it rejects hours
above 12, maps am with hour 12 to 0, and adds 12 to pm hours other than 12. -/
theorem c5_meridian_rules :
    parse_time_fragment (str "noon") = some (12, 0) ∧
    parse_time_fragment (str "midnight") = some (0, 0) ∧
    parse_time_fragment (str "5pm") = some (17, 0) ∧
    parse_time_fragment (str "12am") = some (0, 0) ∧
    parse_time_fragment (str "12pm") = some (12, 0) ∧
    parse_time_fragment (str "13pm") = none ∧
    (∀ h : Nat, 12 < h →
      parse_time_fragment (natToChars h ++ str "pm") = none ∧
      parse_time_fragment (natToChars h ++ str "am") = none) ∧
    (∀ h : Nat, h ≤ 12 → h ≠ 12 →
      parse_time_fragment (natToChars h ++ str "pm") = some (h + 12, 0)) ∧
    parse_time_fragment (natToChars 12 ++ str "am") = some (0, 0) := by
  refine ⟨by decide, by decide, by decide, by decide, by decide, by decide, ?_, ?_, by decide⟩
  · intro h hh
    constructor
    · rw [show (str "pm" : List Char) = ['p', 'm'] from rfl,
        ptf_digits_tail h 'p' 'm' (by decide) (by decide) (by decide) (by decide) (by decide),
        show (['p', 'm'] : List Char) = str "pm" from rfl, timeCore_digits_pm h]
      by_cases hov : h < 2 ^ 32
      · simp only [timeFromParts, parseU32_natToChars h hov]
        by_cases h23 : h > 23
        · simp [h23]
        · simp [h23, hh]
      · simp only [timeFromParts, parseU32_natToChars_overflow h (by omega)]
    · rw [show (str "am" : List Char) = ['a', 'm'] from rfl,
        ptf_digits_tail h 'a' 'm' (by decide) (by decide) (by decide) (by decide) (by decide),
        show (['a', 'm'] : List Char) = str "am" from rfl, timeCore_digits_am h]
      by_cases hov : h < 2 ^ 32
      · simp only [timeFromParts, parseU32_natToChars h hov]
        by_cases h23 : h > 23
        · simp [h23]
        · simp [h23, hh]
      · simp only [timeFromParts, parseU32_natToChars_overflow h (by omega)]
  · intro h hle hne
    rw [show (str "pm" : List Char) = ['p', 'm'] from rfl,
      ptf_digits_tail h 'p' 'm' (by decide) (by decide) (by decide) (by decide) (by decide),
      show (['p', 'm'] : List Char) = str "pm" from rfl, timeCore_digits_pm h]
    simp only [timeFromParts, parseU32_natToChars h (by omega)]
    simp [show ¬ h > 23 by omega, show ¬ h > 12 by omega, hne]

/-- C5 witness: the general meridian rules evaluated at 13 pm and 5 pm. -/
theorem c5_witness :
    parse_time_fragment (natToChars 13 ++ str "pm") = none ∧
    parse_time_fragment (natToChars 5 ++ str "pm") = some (17, 0) := by
  constructor
  · exact (c5_meridian_rules.2.2.2.2.2.2.1 13 (by decide)).1
  · have h5 := c5_meridian_rules.2.2.2.2.2.2.2.1 5 (by decide) (by decide)
    exact h5

/-- C2 counterexample: on the bare input `daily` the daily recognizer does not
produce a Schedule Record; the time capture of its regex is mandatory. -/
theorem c2_counterexample : try_parse_daily (str "daily") = none := by decide

/-- The Schedule Record built by the daily recognizer. -/
def dailySpec (h m : Nat) : CronSpec :=
  ⟨natToChars m, natToChars h, str "*", str "*", str "*",
    str "Daily at " ++ format_clock h m⟩

/-- C2 (amended): the daily recognizer matches `day`, `daily` or `every day`
followed by a time fragment; the literal at separator is optional but the
time itself is mandatory, so the bare inputs `day`, `daily` and `every day`
are non-matches. -/
theorem c2_daily_requires_time :
    try_parse_daily (str "daily") = none ∧
    try_parse_daily (str "day") = none ∧
    try_parse_daily (str "every day") = none ∧
    try_parse_daily (str "daily 05:30") = some (dailySpec 5 30) ∧
    (∀ t h m, noEdgeWs t = true → parse_time_fragment t = some (h, m) →
      try_parse_daily (str "daily at " ++ t) = some (dailySpec h m) ∧
      try_parse_daily (str "day at " ++ t) = some (dailySpec h m) ∧
      try_parse_daily (str "every day at " ++ t) = some (dailySpec h m)) := by
  refine ⟨by decide, by decide, by decide, by decide, ?_⟩
  intro t h m ht hpt
  have htne : t ≠ [] := by
    intro he
    rw [he] at hpt
    rw [show parse_time_fragment [] = none from by decide] at hpt
    exact absurd hpt (by simp)
  have hthead : ∀ d, t.head? = some d → isWs d = false := noEdgeWs_head t ht
  have hw1 : ws1 (str " at " ++ t) = some (str "at " ++ t) := by
    show ws1 (' ' :: (str "at " ++ t)) = _
    apply ws1_cons _ _ (by decide)
    intro d hd
    rw [show (str "at " ++ t : List Char) = 'a' :: (str "t " ++ t) from rfl] at hd
    simp only [List.head?_cons, Option.some.injEq] at hd
    subst hd
    decide
  have hdrop : dropLit (str "at") (str "at " ++ t) = some (' ' :: t) := by
    have := dropLit_append (str "at") (' ' :: t)
    exact this
  have hw2 : ws1 (' ' :: t) = some t := ws1_cons ' ' t (by decide) hthead
  have h2 : matchOptAtThenTime (str " at " ++ t) = some t := by
    simp only [matchOptAtThenTime, hw1, hdrop, hw2]
    rw [if_neg htne]
  refine ⟨?_, ?_, ?_⟩
  · have h1 : matchDailyHead (str "daily at " ++ t) = some (str " at " ++ t) := rfl
    simp only [try_parse_daily, h1, h2, hpt, Option.map_some']
    rfl
  · have h1 : matchDailyHead (str "day at " ++ t) = some (str " at " ++ t) := rfl
    simp only [try_parse_daily, h1, h2, hpt, Option.map_some']
    rfl
  · have h1 : matchDailyHead (str "every day at " ++ t) = some (str " at " ++ t) := rfl
    simp only [try_parse_daily, h1, h2, hpt, Option.map_some']
    rfl

/-- C2 witness: the amended daily shapes at the concrete time 05:30. -/
theorem c2_witness :
    try_parse_daily (str "daily at " ++ str "05:30") = some (dailySpec 5 30) ∧
    try_parse_daily (str "every day at " ++ str "05:30") = some (dailySpec 5 30) := by
  have h1 := c2_daily_requires_time.2.2.2.2 (str "05:30") 5 30 (by decide) (by decide)
  exact ⟨h1.1, h1.2.2⟩

/-- The Schedule Record built by the monthly recognizer when no day list is
given: day of month defaults to 1. -/
def monthlyDefaultSpec (h m : Nat) : CronSpec :=
  ⟨natToChars m, natToChars h, str "1", str "*", str "*",
    str "Monthly on day 1 at " ++ format_clock h m ++ str " (default day)"⟩

/-- C7: the monthly recognizer turns `monthly on 1st and 15th at 04:00` into
exactly the fields 0 4 1,15 star star, with ordinal suffixes stripped and the
day numbers deduplicated ascending; and on `monthly at TIME` with no day list
it produces the default day-of-month field 1. -/
theorem c7_monthly :
    try_parse_monthly (str "monthly on 1st and 15th at 04:00") =
      some ⟨str "0", str "4", str "1,15", str "*", str "*",
        str "Monthly on 1, 15 at 04:00"⟩ ∧
    (∀ t h m, noEdgeWs t = true → parse_time_fragment t = some (h, m) →
      try_parse_monthly (str "monthly at " ++ t) = some (monthlyDefaultSpec h m)) := by
  refine ⟨by decide, ?_⟩
  intro t h m ht hpt
  have hh1 : ∀ c, ((' ' :: str "at ").head? = some c) → isWs c = true := by
    intro c hc; simp only [List.head?_cons, Option.some.injEq] at hc; subst hc; decide
  have hh2 : ∀ c, ((str "at ").head? = some c) → isWs c = false := by
    intro c hc
    rw [show (str "at " : List Char) = 'a' :: str "t " from rfl] at hc
    simp only [List.head?_cons, Option.some.injEq] at hc
    subst hc; decide
  have htr : trim (str " at " ++ t) = str "at " ++ t :=
    trim_space_append (str "at ") t (by decide) hh1 hh2 ht
  have hbranch : (startsWithL (str "monthly") (str "monthly at " ++ t)) = true := rfl
  have htsm : trimStartMatches (str "monthly") (str "monthly at " ++ t) = str " at " ++ t := rfl
  have hne : (str "at " ++ t : List Char) ≠ [] := by
    rw [show (str "at " ++ t : List Char) = 'a' :: (str "t " ++ t) from rfl]
    simp
  have hon : dropLit (str "on ") (str "at " ++ t) = none := rfl
  have hat : dropLit (str "at ") (str "at " ++ t) = some t := dropLit_append (str "at ") t
  simp only [try_parse_monthly, hbranch, if_true, htsm, htr, hne, hon, hat, hpt,
    Option.map_some', if_false]
  rfl

/-- C7 witness: the default-day branch at the concrete time 04:00. -/
theorem c7_witness :
    try_parse_monthly (str "monthly at " ++ str "04:00") = some (monthlyDefaultSpec 4 0) :=
  c7_monthly.2 (str "04:00") 4 0 (by decide) (by decide)

/-! Symbolic evaluation of the interval recognizers on rendered numbers. -/

theorem takeWhile_all_eq (p : Char → Bool) (l : List Char) (h : ∀ c ∈ l, p c = true) :
    l.takeWhile p = l ∧ l.dropWhile p = [] := by
  induction l with
  | nil => exact ⟨rfl, rfl⟩
  | cons c cs ih =>
    have hc : p c = true := h c (by simp)
    obtain ⟨h1, h2⟩ := ih (fun d hd => h d (by simp [hd]))
    exact ⟨by simp [List.takeWhile_cons, hc, h1], by simp [List.dropWhile_cons, hc, h2]⟩

theorem natToChars_head_not_ws (n : Nat) (rest : List Char) :
    ∀ d, (natToChars n ++ rest).head? = some d → isWs d = false := by
  intro d hd
  cases hnc : natToChars n with
  | nil => exact absurd hnc (natToChars_ne_nil n)
  | cons c cs =>
    rw [hnc, List.cons_append, List.head?_cons] at hd
    injection hd with hd
    subst hd
    exact isDigitC_not_ws _ (natToChars_head_digit n _ (by rw [hnc]; rfl))

theorem ws1_space_natToChars (n : Nat) (rest : List Char) :
    ws1 (' ' :: (natToChars n ++ rest)) = some (natToChars n ++ rest) :=
  ws1_cons ' ' _ (by decide) (natToChars_head_not_ws n rest)

theorem span_digits_natToChars (n : Nat) (rest : List Char)
    (hrest : ∀ c, rest.head? = some c → isDigitC c = false) :
    (natToChars n ++ rest).takeWhile isDigitC = natToChars n ∧
      (natToChars n ++ rest).dropWhile isDigitC = rest :=
  takeWhile_append_stop isDigitC _ _
    (fun c hc => (List.all_eq_true.mp (natToChars_all_digit n)) c hc) hrest

theorem matchEveryMinutes_digits (n : Nat) :
    matchEveryMinutes (str "every " ++ natToChars n ++ str " minutes") =
      some (some (natToChars n)) := by
  have h1 : dropLit (str "every") (str "every " ++ natToChars n ++ str " minutes") =
      some (' ' :: (natToChars n ++ str " minutes")) := rfl
  have h2 : ws1 (' ' :: (natToChars n ++ str " minutes")) =
      some (natToChars n ++ str " minutes") := ws1_space_natToChars n (str " minutes")
  have h3 := span_digits_natToChars n (str " minutes") (by
    intro c hc
    rw [show (str " minutes" : List Char) = ' ' :: str "minutes" from rfl,
      List.head?_cons] at hc
    injection hc with hc
    subst hc
    decide)
  have h4 : ws1 (str " minutes") = some (str "minutes") := rfl
  simp only [matchEveryMinutes, h1, h2, h3.1, h3.2, natToChars_ne_nil n, h4, if_false]
  rfl

theorem matchEveryHours_digits_bare (n : Nat) :
    matchEveryHours (str "every " ++ natToChars n ++ str " hours") =
      some (natToChars n, none) := by
  have h1 : dropLit (str "every") (str "every " ++ natToChars n ++ str " hours") =
      some (' ' :: (natToChars n ++ str " hours")) := rfl
  have h2 : ws1 (' ' :: (natToChars n ++ str " hours")) =
      some (natToChars n ++ str " hours") := ws1_space_natToChars n (str " hours")
  have h3 := span_digits_natToChars n (str " hours") (by
    intro c hc
    rw [show (str " hours" : List Char) = ' ' :: str "hours" from rfl,
      List.head?_cons] at hc
    injection hc with hc
    subst hc
    decide)
  have h4 : ws1 (str " hours") = some (str "hours") := rfl
  simp only [matchEveryHours, h1, h2, h3.1, h3.2, natToChars_ne_nil n, h4, if_false]
  rfl

theorem matchAtColonMM_digits (m : Nat)
    (hlen : (natToChars m).length = 1 ∨ (natToChars m).length = 2) :
    matchAtColonMM (str " at :" ++ natToChars m) = some (some (natToChars m)) := by
  have hne : (str " at :" ++ natToChars m : List Char) ≠ [] := by
    rw [show (str " at :" ++ natToChars m : List Char)
      = ' ' :: (str "at :" ++ natToChars m) from rfl]
    simp
  have hw1 : ws1 (str " at :" ++ natToChars m) = some (str "at :" ++ natToChars m) := by
    show ws1 (' ' :: (str "at :" ++ natToChars m)) = _
    apply ws1_cons _ _ (by decide)
    intro d hd
    rw [show (str "at :" ++ natToChars m : List Char)
      = 'a' :: (str "t :" ++ natToChars m) from rfl, List.head?_cons] at hd
    injection hd with hd
    subst hd
    decide
  have h2 : dropLit (str "at") (str "at :" ++ natToChars m) =
      some (str " :" ++ natToChars m) := dropLit_append (str "at") (str " :" ++ natToChars m)
  have hw2 : ws1 (str " :" ++ natToChars m) = some (str ":" ++ natToChars m) := by
    show ws1 (' ' :: (str ":" ++ natToChars m)) = _
    apply ws1_cons _ _ (by decide)
    intro d hd
    rw [show (str ":" ++ natToChars m : List Char)
      = ':' :: natToChars m from rfl, List.head?_cons] at hd
    injection hd with hd
    subst hd
    decide
  have h3 : dropLit (str ":") (str ":" ++ natToChars m) = some (natToChars m) :=
    dropLit_append (str ":") (natToChars m)
  have h4 := takeWhile_all_eq isDigitC (natToChars m)
    (fun c hc => (List.all_eq_true.mp (natToChars_all_digit m)) c hc)
  simp only [matchAtColonMM, hne, if_false, hw1, h2, hw2, h3, h4.1, h4.2]
  rw [if_pos ⟨hlen, trivial⟩]

theorem matchEveryHours_digits_at (n m : Nat)
    (hlen : (natToChars m).length = 1 ∨ (natToChars m).length = 2) :
    matchEveryHours (str "every " ++ (natToChars n ++ (str " hours at :" ++ natToChars m))) =
      some (natToChars n, some (natToChars m)) := by
  have h1 : dropLit (str "every")
      (str "every " ++ (natToChars n ++ (str " hours at :" ++ natToChars m))) =
      some (' ' :: (natToChars n ++ (str " hours at :" ++ natToChars m))) := rfl
  have h2 := ws1_space_natToChars n (str " hours at :" ++ natToChars m)
  have h3 := span_digits_natToChars n (str " hours at :" ++ natToChars m) (by
    intro c hc
    rw [show (str " hours at :" ++ natToChars m : List Char)
      = ' ' :: (str "hours at :" ++ natToChars m) from rfl, List.head?_cons] at hc
    injection hc with hc
    subst hc
    decide)
  have h4 : ws1 (str " hours at :" ++ natToChars m) =
      some (str "hours at :" ++ natToChars m) := by
    show ws1 (' ' :: (str "hours at :" ++ natToChars m)) = _
    apply ws1_cons _ _ (by decide)
    intro d hd
    rw [show (str "hours at :" ++ natToChars m : List Char)
      = 'h' :: (str "ours at :" ++ natToChars m) from rfl, List.head?_cons] at hd
    injection hd with hd
    subst hd
    decide
  have h5 : dropLit (str "hour") (str "hours at :" ++ natToChars m) =
      some (str "s at :" ++ natToChars m) :=
    dropLit_append (str "hour") (str "s at :" ++ natToChars m)
  have h6 : dropLit (str "s") (str "s at :" ++ natToChars m) =
      some (str " at :" ++ natToChars m) :=
    dropLit_append (str "s") (str " at :" ++ natToChars m)
  have h7 := matchAtColonMM_digits m hlen
  simp only [matchEveryHours, h1, h2, h3.1, h3.2, natToChars_ne_nil n, h4, h5, h6, h7,
    if_false]

/-- C9: in the hourly-at and every-N-hours-at shapes a one- or two-digit
minute above 59 is not a non-match; the minute is silently clamped to 59, so
`hourly at :75` succeeds with minute field 59. -/
theorem c9_minute_clamp :
    (∀ m : Nat, 60 ≤ m → m ≤ 99 →
      try_parse_hourly (str "hourly at :" ++ natToChars m) =
        some ⟨str "59", str "*", str "*", str "*", str "*", str "Every hour at :59"⟩) ∧
    (∀ n m : Nat, 0 < n → n < 2 ^ 32 → 60 ≤ m → m ≤ 99 →
      try_parse_every_hours
          (str "every " ++ (natToChars n ++ (str " hours at :" ++ natToChars m))) =
        some ⟨str "59", if n = 1 then str "*" else str "*/" ++ natToChars n,
          str "*", str "*", str "*",
          str "Every " ++ natToChars n ++ str " hour(s) at :" ++ str "59"⟩) := by
  have hlen2 : ∀ m2 : Nat, m2 < 100 → 10 ≤ m2 → (natToChars m2).length = 2 := by decide
  constructor
  · intro m hm60 hm99
    have hlen : (natToChars m).length = 1 ∨ (natToChars m).length = 2 :=
      Or.inr (hlen2 m (by omega) (by omega))
    have hhead : matchHourlyHead (str "hourly at :" ++ natToChars m) =
        some (str " at :" ++ natToChars m) := rfl
    have hval : min ((parseU32 (natToChars m)).getD 0) 59 = 59 := by
      rw [parseU32_natToChars m (by omega)]
      simp only [Option.getD_some]
      omega
    simp only [try_parse_hourly, hhead, matchAtColonMM_digits m hlen, Option.map_some',
      hval]
    rfl
  · intro n m hn hn32 hm60 hm99
    have hlen : (natToChars m).length = 1 ∨ (natToChars m).length = 2 :=
      Or.inr (hlen2 m (by omega) (by omega))
    have hval : min ((parseU32 (natToChars m)).getD 0) 59 = 59 := by
      rw [parseU32_natToChars m (by omega)]
      simp only [Option.getD_some]
      omega
    have hamount : (match parseU32 (natToChars n) with
        | some v => if 0 < v then v else 1
        | none => 1) = n := by
      rw [parseU32_natToChars n hn32]
      simp [hn]
    simp only [try_parse_every_hours, matchEveryHours_digits_at n m hlen, hamount, hval]
    rfl

/-- C9 witness: minute 75 clamps to 59 in both shapes. -/
theorem c9_witness :
    try_parse_hourly (str "hourly at :" ++ natToChars 75) =
      some ⟨str "59", str "*", str "*", str "*", str "*", str "Every hour at :59"⟩ ∧
    try_parse_every_hours
        (str "every " ++ (natToChars 2 ++ (str " hours at :" ++ natToChars 75))) =
      some ⟨str "59", if 2 = 1 then str "*" else str "*/" ++ natToChars 2,
        str "*", str "*", str "*",
        str "Every " ++ natToChars 2 ++ str " hour(s) at :" ++ str "59"⟩ :=
  ⟨c9_minute_clamp.1 75 (by decide) (by decide),
   c9_minute_clamp.2 2 75 (by decide) (by decide) (by decide) (by decide)⟩

/-- C10: in the every-N-minutes and every-N-hours shapes a literal count of 0,
or one too large for a 32-bit unsigned integer, is silently treated as 1: the
parse succeeds with the corresponding interval field star. -/
theorem c10_interval_default :
    parse_expression (str "every 4294967296 minutes") =
      .ok ⟨str "*", str "*", str "*", str "*", str "*", str "Every 1 minute(s)"⟩ ∧
    (∀ n : Nat, n = 0 ∨ 2 ^ 32 ≤ n →
      try_parse_every_minutes (str "every " ++ natToChars n ++ str " minutes") =
        some ⟨str "*", str "*", str "*", str "*", str "*", str "Every 1 minute(s)"⟩ ∧
      try_parse_every_hours (str "every " ++ natToChars n ++ str " hours") =
        some ⟨str "0", str "*", str "*", str "*", str "*", str "Every 1 hour(s)"⟩) := by
  refine ⟨by decide, ?_⟩
  intro n hn
  rcases hn with rfl | hn
  · exact ⟨by decide, by decide⟩
  · constructor
    · simp only [try_parse_every_minutes, matchEveryMinutes_digits n, Option.map_some',
        parseU32_natToChars_overflow n hn]
      rfl
    · simp only [try_parse_every_hours, matchEveryHours_digits_bare n,
        parseU32_natToChars_overflow n hn]
      rfl

/-- C10 witness: the one-past-u32 count and the zero count. -/
theorem c10_witness :
    try_parse_every_minutes (str "every " ++ natToChars 4294967296 ++ str " minutes") =
      some ⟨str "*", str "*", str "*", str "*", str "*", str "Every 1 minute(s)"⟩ ∧
    try_parse_every_hours (str "every " ++ natToChars 0 ++ str " hours") =
      some ⟨str "0", str "*", str "*", str "*", str "*", str "Every 1 hour(s)"⟩ :=
  ⟨(c10_interval_default.2 4294967296 (by decide)).1,
   (c10_interval_default.2 0 (by decide)).2⟩
